import Mathlib

/-!
# Verification of the revkit synthesis façade

This file embeds the synthesis entry points of `src/ext/synthesis.cpp`
(the `gray_synth`, `oracle_synth`, `diagonal_synth`, `dbs` and `tbs`
bindings) together with models of the tweedledum synthesis algorithms
they delegate to (which are not part of this repository's sources and
are therefore modelled from the specification).

Conventions:
* Basis states of an `n`-qubit register are natural numbers `x < 2^n`;
  bit `i` of `x` is the value of qubit `i`.
* All angles are measured in units of `π` and represented as rationals,
  so a quarter turn `π/4` is the rational `1/4`.  A diagonal phase `θ`
  (in units of `π`) multiplies the amplitude by `e^{iπθ}`; phases are
  therefore only meaningful modulo `2`.
-/

namespace RevKit

/-! ## Bit-level utilities -/

/-- XOR of all binary digits of `m` (`true` iff `m` has an odd number of
one bits). -/
def bitParity : Nat → Bool
  | 0 => false
  | m + 1 => (decide ((m + 1) % 2 = 1)).xor (bitParity ((m + 1) / 2))
decreasing_by simp_wf; omega

theorem bitParity_eq (m : Nat) :
    bitParity m = (decide (m % 2 = 1)).xor (bitParity (m / 2)) := by
  cases m with
  | zero => simp [bitParity]
  | succ m => rw [bitParity]

/-- Set bit `q` of `x` to the boolean `b`. -/
def setBit (x q : Nat) (b : Bool) : Nat :=
  if x.testBit q = b then x else x ^^^ (2 ^ q)

theorem testBit_setBit_self (x q : Nat) (b : Bool) :
    (setBit x q b).testBit q = b := by
  unfold setBit
  by_cases h : x.testBit q = b
  · simp [h]
  · simp only [h, if_false, Nat.testBit_xor, Nat.testBit_two_pow_self]
    cases b <;> revert h <;> cases hx : x.testBit q <;> simp

theorem testBit_setBit_ne (x q : Nat) (b : Bool) (j : Nat) (h : j ≠ q) :
    (setBit x q b).testBit j = x.testBit j := by
  unfold setBit
  by_cases hx : x.testBit q = b
  · simp [hx]
  · simp [hx, Nat.testBit_xor, Nat.testBit_two_pow_of_ne (fun hq => h hq.symm)]

/-- The value of `±π`-phase bookkeeping modulo `2`: `a` reduced into `[0, 2)`. -/
def fract2 (a : ℚ) : ℚ := a - 2 * (Rat.floor (a / 2))

/-! ## Netlist model (§3 of the spec)

A gate is an operation tag plus the qubits it involves; a netlist is an
ordered gate sequence over a register of `numQubits` qubits. -/

/-- A gate of the netlist model. -/
inductive Gate
  /-- Multiple-control Toffoli-style flip: flips bit `target` of the basis
  state when every control bit matches its polarity (a control listed in
  `negs` must read `0`, every other control must read `1`; `negs` is a
  submask of `ctrls`, and `target` is never a control). -/
  | mcx (ctrls negs target : Nat)
  /-- Parity phase rotation (an `Rz`-style diagonal gate conjugated by
  CNOTs): multiplies the amplitude by `e^{iπθ}` when the XOR of the bits
  selected by `mask` is one. -/
  | parityPhase (mask : Nat) (theta : ℚ)
  /-- Hadamard on qubit `q`. -/
  | had (q : Nat)
  /-- Diagonal phase conditioned on one computational-basis index `k`. -/
  | diagPhase (k : Nat) (theta : ℚ)
deriving DecidableEq

/-- An ordered sequence of gates over a qubit register. -/
structure Netlist where
  numQubits : Nat
  gates : List Gate
deriving DecidableEq

/-! ## Basis-state simulator

The simulator follows one computational-basis state through a netlist,
tracking the accumulated global phase (in units of `π`).  A Hadamard
opens a two-branch superposition on its qubit; while the superposition
is open only diagonal parity-phase gates are interpreted (that is all
the modelled circuits use), and a second Hadamard on the same qubit
closes it again, which succeeds exactly when the two branch phases
recombine into a single basis state. -/

/-- Simulator state: current basis state `x`, accumulated global phase,
and the optional open Hadamard branch `(q, a0, a1)` holding the phases
accumulated by the branch with qubit `q` equal to `0` resp. `1`. -/
structure SimSt where
  x : Nat
  phase : ℚ
  openH : Option (Nat × ℚ × ℚ)
deriving DecidableEq

/-- Does an `mcx` gate with positive controls `ctrls \ negs` and negative
controls `negs` fire on basis state `x`? -/
def mcxFires (ctrls negs x : Nat) : Bool := ((x ^^^ negs) &&& ctrls) = ctrls

/-- Phase contributed by a parity-phase gate on basis state `x`. -/
def phaseOf (mask x : Nat) (theta : ℚ) : ℚ :=
  if bitParity (x &&& mask) then theta else 0

/-- One simulation step. -/
def simStep (g : Gate) (s : SimSt) : Option SimSt :=
  match g, s.openH with
  | .mcx c n t, none =>
      some { s with x := if mcxFires c n s.x then s.x ^^^ (2 ^ t) else s.x }
  | .mcx _ _ _, some _ => none
  | .parityPhase m th, none =>
      some { s with phase := s.phase + phaseOf m s.x th }
  | .parityPhase m th, some (q, a0, a1) =>
      some { s with openH := some (q, a0 + phaseOf m (setBit s.x q false) th,
                                      a1 + phaseOf m (setBit s.x q true) th) }
  | .had q, none =>
      some { s with openH := some (q, 0, if s.x.testBit q then 1 else 0) }
  | .had q, some (q', a0, a1) =>
      if q = q' then
        let d := fract2 (a0 - a1)
        if d = 0 then
          some { x := setBit s.x q false, phase := s.phase + a0, openH := none }
        else if d = 1 then
          some { x := setBit s.x q true, phase := s.phase + a0, openH := none }
        else none
      else none
  | .diagPhase k th, none =>
      some { s with phase := s.phase + if s.x = k then th else 0 }
  | .diagPhase _ _, some _ => none

/-- Run a gate list from a simulator state. -/
def simGates (gs : List Gate) (s : SimSt) : Option SimSt :=
  match gs with
  | [] => some s
  | g :: gs => (simStep g s).bind (simGates gs)

theorem simGates_append (gs hs : List Gate) (s : SimSt) :
    simGates (gs ++ hs) s = (simGates gs s).bind (simGates hs) := by
  induction gs generalizing s with
  | nil => simp [simGates]
  | cons g gs ih =>
      simp only [List.cons_append, simGates]
      cases simStep g s with
      | none => simp
      | some s' => simp [ih s']

/-- Simulate a netlist on basis state `x`: the resulting basis state and
global phase, or `none` when the circuit leaves the simulable fragment
(an unbalanced superposition). -/
def simulate (nl : Netlist) (x : Nat) : Option (Nat × ℚ) :=
  match simGates nl.gates { x := x, phase := 0, openH := none } with
  | some s => match s.openH with
      | none => some (s.x, s.phase)
      | some _ => none
  | none => none

/-- The net action of a netlist on basis state `x`, phases forgotten. -/
def action (nl : Netlist) (x : Nat) : Option Nat := (simulate nl x).map Prod.fst

/-! ## Truth tables (§3 of the spec)

A Boolean function of fixed arity `numVars`, looked up by the binary
encoding of the input assignment. -/

/-- A truth table: arity plus bit-level lookup by assignment index (only
indices `< 2 ^ numVars` are meaningful). -/
structure TruthTable where
  numVars : Nat
  val : Nat → Bool

/-! ## Mapping compressed variable indices onto qubit positions

A single-target-gate embedder receives a list of control qubits; variable
`i` of the embedded function lives on qubit `qs[i]`.  `extractBits` reads
a function input off a basis state, `spreadBits` translates a variable
mask into a qubit mask. -/

/-- Read the bits of `x` at the qubit positions `qs` into a compressed
value: bit `i` of the result is bit `qs[i]` of `x`. -/
def extractBits (x : Nat) : List Nat → Nat
  | [] => 0
  | q :: qs => (cond (x.testBit q) 1 0) + 2 * extractBits x qs

/-- Spread the low `qs.length` bits of `S` onto the qubit positions `qs`:
bit `qs[i]` of the result is bit `i` of `S`. -/
def spreadBits (S : Nat) : List Nat → Nat
  | [] => 0
  | q :: qs => (if S % 2 = 1 then 2 ^ q else 0) ||| spreadBits (S / 2) qs

theorem extractBits_lt (x : Nat) (qs : List Nat) :
    extractBits x qs < 2 ^ qs.length := by
  induction qs with
  | nil => simp [extractBits]
  | cons q t ih =>
      simp only [extractBits, List.length_cons, pow_succ]
      cases x.testBit q <;> simp <;> omega

theorem extractBits_testBit (x : Nat) (qs : List Nat) (i : Nat)
    (hi : i < qs.length) :
    (extractBits x qs).testBit i = x.testBit (qs.get ⟨i, hi⟩) := by
  induction qs generalizing i with
  | nil => simp at hi
  | cons q t ih =>
      cases i with
      | zero =>
          simp only [extractBits, List.get, Nat.testBit_zero]
          cases x.testBit q <;> simp
      | succ i =>
          have h2 : (extractBits x (q :: t)) / 2 = extractBits x t := by
            simp only [extractBits]
            cases x.testBit q
            · simp
            · simp
              omega
          rw [Nat.testBit_add_one, h2]
          exact ih i (by simpa using hi)

theorem spreadBits_testBit_not_mem (S : Nat) (qs : List Nat) (j : Nat)
    (h : j ∉ qs) :
    (spreadBits S qs).testBit j = false := by
  induction qs generalizing S with
  | nil => simp [spreadBits]
  | cons q t ih =>
      have hq : j ≠ q := fun hj => h (hj ▸ List.mem_cons_self q t)
      have ht : j ∉ t := fun hj => h (List.mem_cons_of_mem q hj)
      simp only [spreadBits, Nat.testBit_or, ih _ ht, Bool.or_false]
      by_cases hs : S % 2 = 1 <;>
        simp [hs, Nat.testBit_two_pow_of_ne (fun hc => hq hc.symm)]

theorem spreadBits_testBit_get (S : Nat) (qs : List Nat) (hnd : qs.Nodup)
    (i : Nat) (hi : i < qs.length) :
    (spreadBits S qs).testBit (qs.get ⟨i, hi⟩) = S.testBit i := by
  induction qs generalizing S i with
  | nil => simp at hi
  | cons q t ih =>
      have hqt : q ∉ t := (List.nodup_cons.mp hnd).1
      have hndt : t.Nodup := (List.nodup_cons.mp hnd).2
      cases i with
      | zero =>
          simp only [spreadBits, List.get, Nat.testBit_or,
            spreadBits_testBit_not_mem _ _ _ hqt, Bool.or_false, Nat.testBit_zero]
          by_cases hs : S % 2 = 1 <;> simp [hs, Nat.testBit_two_pow_self]
      | succ i =>
          have hit : i < t.length := by simpa using hi
          have hmem : t.get ⟨i, hit⟩ ∈ t := List.get_mem t i hit
          have hne : t.get ⟨i, hit⟩ ≠ q := fun hc => hqt (hc ▸ hmem)
          simp only [spreadBits, List.get, Nat.testBit_or]
          have hih := ih (S / 2) hndt i hit
          rw [hih]
          have : (if S % 2 = 1 then 2 ^ q else 0).testBit (t.get ⟨i, hit⟩) = false := by
            by_cases hs : S % 2 = 1
            · rw [if_pos hs]
              exact Nat.testBit_two_pow_of_ne (fun hc => hne hc.symm)
            · rw [if_neg hs]
              simp
          rw [this, Nat.testBit_add_one]
          simp

theorem mcxFires_iff (c n x : Nat) :
    mcxFires c n x = true ↔
      ∀ j, c.testBit j = true → x.testBit j = !(n.testBit j) := by
  unfold mcxFires
  rw [decide_eq_true_eq]
  constructor
  · intro h j hc
    have hj := congrArg (fun m => m.testBit j) h
    simp only [Nat.testBit_and, Nat.testBit_xor, hc, Bool.and_true] at hj
    cases hx : x.testBit j <;> cases hn : n.testBit j <;> simp_all
  · intro h
    apply Nat.eq_of_testBit_eq
    intro j
    by_cases hc : c.testBit j = true
    · have hx := h j hc
      simp only [Nat.testBit_and, Nat.testBit_xor, hc, Bool.and_true, hx]
      cases n.testBit j <;> simp
    · simp only [Bool.not_eq_true] at hc
      simp [Nat.testBit_and, hc]

/-- A control-and-polarity pair spread onto a qubit list fires on the full
basis state exactly when the compressed pair fires on the extracted input. -/
theorem mcxFires_spread (x S N : Nat) (qs : List Nat) (hnd : qs.Nodup)
    (hS : S < 2 ^ qs.length) :
    mcxFires (spreadBits S qs) (spreadBits N qs) x
      = mcxFires S N (extractBits x qs) := by
  have h1 : mcxFires (spreadBits S qs) (spreadBits N qs) x = true ↔
      mcxFires S N (extractBits x qs) = true := by
    rw [mcxFires_iff, mcxFires_iff]
    constructor
    · intro h i hSi
      have hi : i < qs.length := by
        by_contra hge
        have : S.testBit i = false :=
          Nat.testBit_lt_two_pow (lt_of_lt_of_le hS (Nat.pow_le_pow_right (by omega) (by omega)))
        simp [this] at hSi
      have hspread : (spreadBits S qs).testBit (qs.get ⟨i, hi⟩) = true := by
        rw [spreadBits_testBit_get S qs hnd i hi]; exact hSi
      have := h _ hspread
      rw [extractBits_testBit x qs i hi, spreadBits_testBit_get N qs hnd i hi] at *
      exact this
    · intro h j hj
      by_cases hmem : j ∈ qs
      · obtain ⟨i, hji⟩ := List.get_of_mem hmem
        obtain ⟨iv, hiv⟩ := i
        subst hji
        rw [spreadBits_testBit_get S qs hnd iv hiv] at hj
        have := h iv hj
        rw [extractBits_testBit x qs iv hiv] at this
        rw [spreadBits_testBit_get N qs hnd iv hiv]
        exact this
      · rw [spreadBits_testBit_not_mem S qs j hmem] at hj
        exact absurd hj Bool.false_ne_true
  cases hL : mcxFires (spreadBits S qs) (spreadBits N qs) x <;>
    cases hR : mcxFires S N (extractBits x qs) <;> simp_all

theorem spreadBits_testBit_lt (S : Nat) (qs : List Nat) (j : Nat)
    (hq : ∀ q ∈ qs, q < j) :
    (spreadBits S qs).testBit j = false := by
  apply spreadBits_testBit_not_mem
  intro hmem
  exact absurd (hq j hmem) (by omega)

theorem spreadBits_zero (qs : List Nat) : spreadBits 0 qs = 0 := by
  induction qs with
  | nil => rfl
  | cons q t ih => simp [spreadBits, ih]

/-! ## Submasks -/

/-- Submask test: every set bit of `a` is also set in `b`. -/
def subMask (a b : Nat) : Bool := a &&& b = a

theorem subMask_iff (a b : Nat) :
    subMask a b = true ↔ ∀ j, a.testBit j = true → b.testBit j = true := by
  unfold subMask
  rw [decide_eq_true_eq]
  constructor
  · intro h j ha
    have hj := congrArg (fun m => m.testBit j) h
    simp only [Nat.testBit_and, ha, Bool.true_and] at hj
    exact hj
  · intro h
    apply Nat.eq_of_testBit_eq
    intro j
    by_cases ha : a.testBit j = true
    · simp [Nat.testBit_and, ha, h j ha]
    · simp only [Bool.not_eq_true] at ha
      simp [Nat.testBit_and, ha]

theorem subMask_le {a b : Nat} (h : subMask a b = true) : a ≤ b := by
  unfold subMask at h
  rw [decide_eq_true_eq] at h
  calc a = a &&& b := h.symm
    _ ≤ b := Nat.and_le_right

theorem subMask_antisymm {a b : Nat} (h1 : subMask a b = true)
    (h2 : subMask b a = true) : a = b :=
  Nat.le_antisymm (subMask_le h1) (subMask_le h2)

theorem subMask_refl (a : Nat) : subMask a a = true := by
  rw [subMask_iff]; intro j h; exact h

theorem subMask_trans {a b c : Nat} (h1 : subMask a b = true)
    (h2 : subMask b c = true) : subMask a c = true := by
  rw [subMask_iff] at *
  exact fun j ha => h2 j (h1 j ha)

theorem exists_testBit_of_ne_zero {m : Nat} (h : m ≠ 0) :
    ∃ i, m.testBit i = true := by
  by_contra hc
  push_neg at hc
  apply h
  apply Nat.eq_of_testBit_eq
  intro i
  simp only [Nat.zero_testBit]
  exact Bool.not_eq_true _ |>.mp (hc i)

/-! ## Parity lemmas -/

theorem xor_div_two (a b : Nat) : (a ^^^ b) / 2 = (a / 2) ^^^ (b / 2) := by
  apply Nat.eq_of_testBit_eq
  intro i
  rw [Nat.testBit_div_two, Nat.testBit_xor, Nat.testBit_xor,
    Nat.testBit_div_two, Nat.testBit_div_two]

theorem bitParity_zero : bitParity 0 = false := by simp [bitParity]

theorem bitParity_xor (a b : Nat) :
    bitParity (a ^^^ b) = (bitParity a).xor (bitParity b) := by
  obtain ⟨k, hk⟩ : ∃ k, a < 2 ^ k ∧ b < 2 ^ k :=
    ⟨a + b, lt_of_le_of_lt (by omega) (Nat.lt_two_pow _),
      lt_of_le_of_lt (by omega) (Nat.lt_two_pow _)⟩
  induction k generalizing a b with
  | zero =>
      have ha : a = 0 := by omega
      have hb : b = 0 := by omega
      subst ha; subst hb
      simp [bitParity_zero]
  | succ k ih =>
      have hd : a / 2 < 2 ^ k ∧ b / 2 < 2 ^ k := by
        have hp : (2 : Nat) ^ (k + 1) = 2 * 2 ^ k := by ring
        omega
      have hbit : decide ((a ^^^ b) % 2 = 1)
          = (decide (a % 2 = 1)).xor (decide (b % 2 = 1)) := by
        have := Nat.testBit_xor a b 0
        simpa [Nat.testBit_zero] using this
      rw [bitParity_eq (a ^^^ b), bitParity_eq a, bitParity_eq b, xor_div_two,
        ih (a / 2) (b / 2) hd, hbit]
      cases decide (a % 2 = 1) <;> cases decide (b % 2 = 1) <;>
        cases bitParity (a / 2) <;> cases bitParity (b / 2) <;> rfl

theorem bitParity_two_pow (q : Nat) : bitParity (2 ^ q) = true := by
  induction q with
  | zero =>
      have h1 : (2 : Nat) ^ 0 = 1 := rfl
      rw [h1, bitParity_eq]
      norm_num [bitParity_zero]
  | succ q ih =>
      rw [bitParity_eq]
      have h1 : 2 ^ (q + 1) % 2 = 0 := by
        simp [Nat.pow_succ, Nat.mul_mod_left]
      have h2 : 2 ^ (q + 1) / 2 = 2 ^ q := by
        rw [Nat.pow_succ, Nat.mul_div_cancel]
        omega
      rw [h1, h2, ih]
      rfl

/-! ## Simulation of blocks of multi-controlled flips -/

/-- A list of multiple-control flips with shared target `t`, described by
control-mask/polarity-mask pairs. -/
def mcxBlock (ps : List (Nat × Nat)) (t : Nat) : List Gate :=
  ps.map (fun p => Gate.mcx p.1 p.2 t)

/-- The number of gates of an `mcxBlock` that fire on basis state `x`. -/
def firedCount (ps : List (Nat × Nat)) (x : Nat) : Nat :=
  (ps.filter (fun p => mcxFires p.1 p.2 x)).length

theorem mcxFires_xor_two_pow (c n x t : Nat) (hc : c.testBit t = false) :
    mcxFires c n (x ^^^ 2 ^ t) = mcxFires c n x := by
  have h : ((x ^^^ 2 ^ t) ^^^ n) &&& c = (x ^^^ n) &&& c := by
    apply Nat.eq_of_testBit_eq
    intro j
    by_cases hj : j = t
    · subst hj; simp [Nat.testBit_and, hc]
    · simp [Nat.testBit_and, Nat.testBit_xor,
        Nat.testBit_two_pow_of_ne (fun hh => hj hh.symm)]
  unfold mcxFires
  rw [h]

theorem firedCount_xor_two_pow (ps : List (Nat × Nat)) (x t : Nat)
    (h : ∀ p ∈ ps, p.1.testBit t = false) :
    firedCount ps (x ^^^ 2 ^ t) = firedCount ps x := by
  unfold firedCount
  congr 1
  apply List.filter_congr
  intro p hp
  exact mcxFires_xor_two_pow p.1 p.2 x t (h p hp)

theorem simGates_mcxBlock (ps : List (Nat × Nat)) (t : Nat) (x : Nat) (ph : ℚ)
    (h : ∀ p ∈ ps, p.1.testBit t = false) :
    simGates (mcxBlock ps t) ⟨x, ph, none⟩ =
      some ⟨if firedCount ps x % 2 = 1 then x ^^^ 2 ^ t else x, ph, none⟩ := by
  induction ps generalizing x with
  | nil => simp [mcxBlock, simGates, firedCount]
  | cons p ps ih =>
      have hrest : ∀ q ∈ ps, q.1.testBit t = false :=
        fun q hq => h q (List.mem_cons_of_mem p hq)
      have hcnt : firedCount (p :: ps) x =
          (if mcxFires p.1 p.2 x then 1 else 0) + firedCount ps x := by
        unfold firedCount
        cases hf : mcxFires p.1 p.2 x <;> simp [List.filter, hf, Nat.add_comm]
      have hstep : simGates (mcxBlock (p :: ps) t) ⟨x, ph, none⟩ =
          simGates (mcxBlock ps t)
            ⟨if mcxFires p.1 p.2 x then x ^^^ 2 ^ t else x, ph, none⟩ := rfl
      rw [hstep]
      cases hf : mcxFires p.1 p.2 x with
      | false =>
          rw [if_neg (by simp [hf])]
          rw [ih x hrest, hcnt, hf]
          simp
      | true =>
          rw [if_pos rfl]
          rw [ih (x ^^^ 2 ^ t) hrest, hcnt, hf,
            firedCount_xor_two_pow ps x t hrest]
          have hxx : x ^^^ 2 ^ t ^^^ 2 ^ t = x := by
            rw [Nat.xor_assoc, Nat.xor_self, Nat.xor_zero]
          rcases Nat.mod_two_eq_zero_or_one (firedCount ps x) with hm | hm <;>
            simp [hm, Nat.add_mod, hxx]

/-! ## Positive-polarity Reed–Muller (algebraic normal form) coefficients -/

/-- Modelled from the spec: the canonical positive-polarity algebraic
normal form of a Boolean function (§4.3) — the coefficient of the
monomial with variable support `S`, as an element of `GF(2)`: the XOR of
`f` over all submasks of `S`. -/
def anfZ (f : Nat → Bool) (S : Nat) : ZMod 2 :=
  ∑ y ∈ (Finset.range (S + 1)).filter (fun y => subMask y S = true),
    (if f y then 1 else 0)

/-- The Boolean ANF coefficient. -/
def anfCoeff (f : Nat → Bool) (S : Nat) : Bool := anfZ f S = 1

theorem zmod_two_cases (a : ZMod 2) : a = 0 ∨ a = 1 := by
  fin_cases a <;> simp

theorem anfZ_eq_coeff (f : Nat → Bool) (S : Nat) :
    anfZ f S = (if anfCoeff f S then 1 else 0) := by
  unfold anfCoeff
  rcases zmod_two_cases (anfZ f S) with h | h <;> simp [h]

theorem anfZ_range (f : Nat → Bool) (n S : Nat) (hS : S < 2 ^ n) :
    anfZ f S = ∑ y ∈ (Finset.range (2 ^ n)).filter (fun y => subMask y S = true),
      (if f y then 1 else 0) := by
  unfold anfZ
  congr 1
  apply Finset.ext
  intro y
  simp only [Finset.mem_filter, Finset.mem_range]
  constructor
  · rintro ⟨h1, h2⟩
    exact ⟨lt_of_le_of_lt (subMask_le h2) hS, h2⟩
  · rintro ⟨h1, h2⟩
    exact ⟨Nat.lt_succ_of_le (subMask_le h2), h2⟩

/-- The parity of the number of masks `S` in the submask interval
`y ⊆ S ⊆ x`: even unless `y = x`. -/
theorem interval_parity (n x y : Nat) (hx : x < 2 ^ n) :
    ∑ S ∈ (Finset.range (2 ^ n)).filter
        (fun S => subMask y S = true ∧ subMask S x = true),
      (1 : ZMod 2) = if y = x then 1 else 0 := by
  by_cases hyx : y = x
  · subst hyx
    have hfil : (Finset.range (2 ^ n)).filter
        (fun S => subMask y S = true ∧ subMask S y = true) = {y} := by
      apply Finset.ext
      intro S
      simp only [Finset.mem_filter, Finset.mem_range, Finset.mem_singleton]
      constructor
      · rintro ⟨_, h1, h2⟩
        exact (subMask_antisymm h1 h2).symm
      · intro hS
        subst hS
        exact ⟨hx, subMask_refl S, subMask_refl S⟩
    rw [hfil, Finset.sum_singleton, if_pos rfl]
  · rw [if_neg hyx]
    by_cases hsub : subMask y x = true
    · have hne : x ^^^ y ≠ 0 := by
        intro h
        exact hyx ((Nat.xor_eq_zero.mp h).symm)
      obtain ⟨b, hb⟩ := exists_testBit_of_ne_zero hne
      rw [Nat.testBit_xor] at hb
      have hyb : y.testBit b = false := by
        by_contra hyb
        simp only [Bool.not_eq_false] at hyb
        have hxb := (subMask_iff y x).mp hsub b hyb
        rw [hxb, hyb] at hb
        simp at hb
      have hxb : x.testBit b = true := by
        rw [hyb] at hb
        simpa using hb
      have hbn : b < n := by
        by_contra hge
        have : x.testBit b = false :=
          Nat.testBit_lt_two_pow
            (lt_of_lt_of_le hx (Nat.pow_le_pow_right (by omega) (by omega)))
        rw [this] at hxb
        exact Bool.false_ne_true hxb
      refine Finset.sum_involution (fun S _ => S ^^^ 2 ^ b) (fun a _ => by decide)
        (fun a _ _ heq => ?_) (fun a ha => ?_) (fun a _ => ?_)
      · have hcb := congrArg (fun m => Nat.testBit m b) heq
        simp only [Nat.testBit_xor, Nat.testBit_two_pow_self] at hcb
        cases hab : a.testBit b <;> rw [hab] at hcb <;> simp at hcb
      · simp only [Finset.mem_filter, Finset.mem_range] at ha ⊢
        obtain ⟨har, hya, hax⟩ := ha
        refine ⟨Nat.xor_lt_two_pow har (Nat.pow_lt_pow_right (by omega) hbn), ?_, ?_⟩
        · rw [subMask_iff]
          intro j hyj
          have hjb : j ≠ b := fun hc => by
            rw [hc, hyb] at hyj
            exact Bool.false_ne_true hyj
          rw [Nat.testBit_xor, Nat.testBit_two_pow_of_ne (fun hc => hjb hc.symm)]
          simp [(subMask_iff y a).mp hya j hyj]
        · rw [subMask_iff]
          intro j haj
          rw [Nat.testBit_xor] at haj
          by_cases hjb : j = b
          · subst hjb
            exact hxb
          · rw [Nat.testBit_two_pow_of_ne (fun hc => hjb hc.symm)] at haj
            simp only [Bool.xor_false] at haj
            exact (subMask_iff a x).mp hax j haj
      · show a ^^^ 2 ^ b ^^^ 2 ^ b = a
        rw [Nat.xor_assoc, Nat.xor_self, Nat.xor_zero]
    · have hfil : (Finset.range (2 ^ n)).filter
          (fun S => subMask y S = true ∧ subMask S x = true) = ∅ := by
        apply Finset.filter_false_of_mem
        intro S _
        rintro ⟨h1, h2⟩
        exact hsub (subMask_trans h1 h2)
      rw [hfil, Finset.sum_empty]

/-- Möbius inversion for the positive-polarity Reed–Muller form: summing
the ANF coefficients over the submasks of `x` recovers `f x`. -/
theorem anf_eval (f : Nat → Bool) (n x : Nat) (hx : x < 2 ^ n) :
    ∑ S ∈ (Finset.range (2 ^ n)).filter (fun S => subMask S x = true),
      anfZ f S = (if f x then (1 : ZMod 2) else 0) := by
  have h1 : ∑ S ∈ (Finset.range (2 ^ n)).filter (fun S => subMask S x = true),
      anfZ f S
      = ∑ S ∈ Finset.range (2 ^ n), ∑ y ∈ Finset.range (2 ^ n),
          (if subMask y S = true ∧ subMask S x = true
            then (if f y then (1 : ZMod 2) else 0) else 0) := by
    rw [Finset.sum_filter]
    apply Finset.sum_congr rfl
    intro S hS
    by_cases hSx : subMask S x = true
    · rw [if_pos hSx, anfZ_range f n S (Finset.mem_range.mp hS), Finset.sum_filter]
      apply Finset.sum_congr rfl
      intro y _
      by_cases hyS : subMask y S = true
      · simp [hyS, hSx]
      · simp [hyS]
    · rw [if_neg hSx, eq_comm]
      apply Finset.sum_eq_zero
      intro y _
      simp [hSx]
  rw [h1, Finset.sum_comm]
  have h2 : ∀ y ∈ Finset.range (2 ^ n),
      ∑ S ∈ Finset.range (2 ^ n),
        (if subMask y S = true ∧ subMask S x = true
          then (if f y then (1 : ZMod 2) else 0) else 0)
      = (if y = x then (if f y then (1 : ZMod 2) else 0) else 0) := by
    intro y _
    have h3 : ∑ S ∈ Finset.range (2 ^ n),
        (if subMask y S = true ∧ subMask S x = true
          then (if f y then (1 : ZMod 2) else 0) else 0)
        = (if f y then (1 : ZMod 2) else 0) *
            ∑ S ∈ (Finset.range (2 ^ n)).filter
              (fun S => subMask y S = true ∧ subMask S x = true), (1 : ZMod 2) := by
      rw [Finset.mul_sum, ← Finset.sum_filter]
      apply Finset.sum_congr rfl
      intro S _
      rw [mul_one]
    rw [h3, interval_parity n x y hx]
    by_cases hyx : y = x
    · simp [hyx]
    · simp [hyx]
  rw [Finset.sum_congr rfl h2, Finset.sum_ite_eq' (Finset.range (2 ^ n)) x
    (fun y => if f y then (1 : ZMod 2) else 0), if_pos (Finset.mem_range.mpr hx)]

/-! ## Bridges between list-level gate counting and `Finset` sums -/

theorem filter_map_comm {α β : Type _} (l : List α) (g : α → β) (q : β → Bool) :
    (l.map g).filter q = (l.filter (fun a => q (g a))).map g := by
  induction l with
  | nil => rfl
  | cons a l ih =>
      by_cases h : q (g a) = true <;> simp [List.filter, h, ih]

theorem filter_range_map_sum {M : Type _} [AddCommMonoid M] (m : Nat)
    (p : Nat → Bool) (g : Nat → M) :
    (((List.range m).filter p).map g).sum
      = ∑ S ∈ (Finset.range m).filter (fun S => p S = true), g S := by
  induction m with
  | zero => simp
  | succ m ih =>
      rw [List.range_succ, List.filter_append, List.map_append, List.sum_append, ih,
        Finset.range_succ, Finset.filter_insert]
      by_cases hp : p m = true
      · rw [if_pos hp, Finset.sum_insert (by simp)]
        simp [List.filter, hp, add_comm]
      · rw [if_neg hp]
        simp [List.filter, hp]

theorem map_one_sum {α : Type _} (l : List α) :
    (l.map (fun _ => (1 : ZMod 2))).sum = (l.length : ZMod 2) := by
  induction l with
  | nil => simp
  | cons a l ih => simp [ih, add_comm]

theorem count_filter_range_zmod (m : Nat) (p : Nat → Bool) :
    ((((List.range m).filter p).length : Nat) : ZMod 2)
      = ∑ S ∈ (Finset.range m).filter (fun S => p S = true), (1 : ZMod 2) := by
  rw [← filter_range_map_sum m p (fun _ => (1 : ZMod 2)), map_one_sum]

theorem zmod_two_natCast_eq_one (c : Nat) : ((c : ZMod 2) = 1) ↔ c % 2 = 1 := by
  constructor
  · intro h
    rcases Nat.mod_two_eq_zero_or_one c with hm | hm
    · exfalso
      rw [← ZMod.natCast_mod c 2, hm] at h
      simp at h
    · exact hm
  · intro h
    rw [← ZMod.natCast_mod c 2, h]
    simp

theorem firedCount_map (l : List Nat) (pf : Nat → Nat × Nat) (x : Nat) :
    firedCount (l.map pf) x
      = (l.filter (fun S => mcxFires (pf S).1 (pf S).2 x)).length := by
  unfold firedCount
  rw [filter_map_comm, List.length_map]

/-! ## The single-target-gate embedders (§4.3 of the spec)

`src/ext/synthesis.cpp` dispatches `oracle_synth` and `dbs` onto
`tweedledum::stg_from_spectrum`, `stg_from_pkrm` and `stg_from_pprm`.
Those three are not part of this repository's sources; they are modelled
from the specification.  Each receives the qubit list whose last entry is
the target and must XOR the target with the function of the controls. -/

/-- Bitwise complement within `n` bits. -/
def complN (n x : Nat) : Nat := (2 ^ n - 1) ^^^ x

theorem complN_lt (n x : Nat) (hx : x < 2 ^ n) : complN n x < 2 ^ n :=
  Nat.xor_lt_two_pow (by omega) hx

theorem complN_complN (n x : Nat) : complN n (complN n x) = x := by
  unfold complN
  rw [← Nat.xor_assoc, Nat.xor_self, Nat.zero_xor]

/-- Modelled from the spec: `tweedledum::stg_from_pkrm` (not under `src/`;
§4.3) — appends "one multi-controlled flip per nonzero term of the
function's canonical positive-polarity algebraic normal form".  The gate
for the monomial with variable support `S` has positive controls on the
qubits carrying the variables of `S` and flips the last qubit. -/
def stg_from_pkrm (f : TruthTable) (qubits : List Nat) : List Gate :=
  mcxBlock
    (((List.range (2 ^ f.numVars)).filter (fun S => anfCoeff f.val S)).map
      (fun S => (spreadBits S qubits.dropLast, 0)))
    (qubits.getLastD 0)

/-- Modelled from the spec: `tweedledum::stg_from_pprm` (not under `src/`;
§4.3) — "a variant minimal-term expansion, generally producing fewer or
differently-shaped terms than pkrm for certain functions": the
fixed-polarity Reed–Muller expansion with every variable in negative
polarity, one multi-controlled flip with all-negative controls per
nonzero coefficient. -/
def stg_from_pprm (f : TruthTable) (qubits : List Nat) : List Gate :=
  mcxBlock
    (((List.range (2 ^ f.numVars)).filter
        (fun S => anfCoeff (fun y => f.val (complN f.numVars y)) S)).map
      (fun S => (spreadBits S qubits.dropLast, spreadBits S qubits.dropLast)))
    (qubits.getLastD 0)

theorem mcxFires_zero_negs (S e : Nat) : mcxFires S 0 e = subMask S e := by
  unfold mcxFires subMask
  rw [Nat.xor_zero, Nat.and_comm e S]

theorem mcxFires_self_negs (n S e : Nat) (hS : S < 2 ^ n) (he : e < 2 ^ n) :
    mcxFires S S e = subMask S (complN n e) := by
  have hiff : mcxFires S S e = true ↔ subMask S (complN n e) = true := by
    rw [mcxFires_iff, subMask_iff]
    constructor
    · intro h j hj
      have hjn : j < n := by
        by_contra hge
        have : S.testBit j = false :=
          Nat.testBit_lt_two_pow
            (lt_of_lt_of_le hS (Nat.pow_le_pow_right (by omega) (by omega)))
        rw [this] at hj
        exact Bool.false_ne_true hj
      have := h j hj
      rw [hj] at this
      unfold complN
      rw [Nat.testBit_xor, Nat.testBit_two_pow_sub_one, this]
      simp [hjn]
    · intro h j hj
      have hjn : j < n := by
        by_contra hge
        have : S.testBit j = false :=
          Nat.testBit_lt_two_pow
            (lt_of_lt_of_le hS (Nat.pow_le_pow_right (by omega) (by omega)))
        rw [this] at hj
        exact Bool.false_ne_true hj
      have hc := h j hj
      unfold complN at hc
      rw [Nat.testBit_xor, Nat.testBit_two_pow_sub_one] at hc
      have hd : decide (j < n) = true := by simp [hjn]
      rw [hd, Bool.true_xor] at hc
      simp only [Bool.not_eq_true'] at hc
      rw [hj, hc]
      rfl
  cases hL : mcxFires S S e <;> cases hR : subMask S (complN n e) <;> simp_all

/-- Parity of the number of pkrm gates that fire equals `f` at the
extracted input. -/
theorem pkrm_count_parity (f : TruthTable) (qs : List Nat) (x : Nat)
    (hnd : qs.Nodup) (hlen : qs.length = f.numVars) :
    ((((List.range (2 ^ f.numVars)).filter (fun S => anfCoeff f.val S)).filter
        (fun S => mcxFires (spreadBits S qs) 0 x)).length : ZMod 2)
      = (if f.val (extractBits x qs) then 1 else 0) := by
  set n := f.numVars with hn
  set e := extractBits x qs with he
  have hel : e < 2 ^ n := by
    rw [he, ← hlen]
    exact extractBits_lt x qs
  rw [List.filter_filter, count_filter_range_zmod]
  have hpred : ∀ S ∈ Finset.range (2 ^ n),
      ((mcxFires (spreadBits S qs) 0 x && anfCoeff f.val S) = true)
        ↔ ((subMask S e && anfCoeff f.val S) = true) := by
    intro S hS
    have hSlt : S < 2 ^ qs.length := by
      rw [hlen]
      exact Finset.mem_range.mp hS
    rw [← spreadBits_zero qs, mcxFires_spread x S 0 qs hnd hSlt,
      mcxFires_zero_negs, he]
  rw [Finset.filter_congr hpred]
  have hsplit : ∑ S ∈ (Finset.range (2 ^ n)).filter
        (fun S => (subMask S e && anfCoeff f.val S) = true), (1 : ZMod 2)
      = ∑ S ∈ (Finset.range (2 ^ n)).filter (fun S => subMask S e = true),
          anfZ f.val S := by
    rw [Finset.sum_filter, Finset.sum_filter]
    apply Finset.sum_congr rfl
    intro S _
    rw [anfZ_eq_coeff]
    by_cases h1 : anfCoeff f.val S = true <;> by_cases h2 : subMask S e = true <;>
      simp [h1, h2]
  rw [hsplit, anf_eval f.val n e hel]

/-- Parity of the number of pprm gates that fire equals `f` at the
extracted input. -/
theorem pprm_count_parity (f : TruthTable) (qs : List Nat) (x : Nat)
    (hnd : qs.Nodup) (hlen : qs.length = f.numVars) :
    ((((List.range (2 ^ f.numVars)).filter
          (fun S => anfCoeff (fun y => f.val (complN f.numVars y)) S)).filter
        (fun S => mcxFires (spreadBits S qs) (spreadBits S qs) x)).length : ZMod 2)
      = (if f.val (extractBits x qs) then 1 else 0) := by
  set n := f.numVars with hn
  set e := extractBits x qs with he
  have hel : e < 2 ^ n := by
    rw [he, ← hlen]
    exact extractBits_lt x qs
  rw [List.filter_filter, count_filter_range_zmod]
  have hpred : ∀ S ∈ Finset.range (2 ^ n),
      ((mcxFires (spreadBits S qs) (spreadBits S qs) x
          && anfCoeff (fun y => f.val (complN n y)) S) = true)
        ↔ ((subMask S (complN n e)
          && anfCoeff (fun y => f.val (complN n y)) S) = true) := by
    intro S hS
    have hSr : S < 2 ^ n := Finset.mem_range.mp hS
    have hSlt : S < 2 ^ qs.length := by rw [hlen]; exact hSr
    rw [mcxFires_spread x S S qs hnd hSlt, mcxFires_self_negs n S e hSr hel, he]
  rw [Finset.filter_congr hpred]
  have hsplit : ∑ S ∈ (Finset.range (2 ^ n)).filter
        (fun S => (subMask S (complN n e)
          && anfCoeff (fun y => f.val (complN n y)) S) = true), (1 : ZMod 2)
      = ∑ S ∈ (Finset.range (2 ^ n)).filter
          (fun S => subMask S (complN n e) = true),
          anfZ (fun y => f.val (complN n y)) S := by
    rw [Finset.sum_filter, Finset.sum_filter]
    apply Finset.sum_congr rfl
    intro S _
    rw [anfZ_eq_coeff]
    by_cases h1 : anfCoeff (fun y => f.val (complN n y)) S = true <;>
      by_cases h2 : subMask S (complN n e) = true <;> simp [h1, h2]
  rw [hsplit, anf_eval (fun y => f.val (complN n y)) n (complN n e) (complN_lt n e hel),
    complN_complN]

/-- The pkrm single-target gate XORs the target qubit with the function of
the control qubits and does nothing else. -/
theorem stg_pkrm_action (f : TruthTable) (qs : List Nat) (t : Nat) (x : Nat) (ph : ℚ)
    (hnd : qs.Nodup) (ht : t ∉ qs) (hlen : qs.length = f.numVars) :
    simGates (stg_from_pkrm f (qs ++ [t])) ⟨x, ph, none⟩ =
      some ⟨if f.val (extractBits x qs) then x ^^^ 2 ^ t else x, ph, none⟩ := by
  unfold stg_from_pkrm
  rw [List.dropLast_concat, List.getLastD_concat]
  rw [simGates_mcxBlock _ t x ph (by
    intro p hp
    obtain ⟨S, hS, hps⟩ := List.mem_map.mp hp
    rw [← hps]
    exact spreadBits_testBit_not_mem S qs t ht)]
  have hcount : firedCount
      (((List.range (2 ^ f.numVars)).filter (fun S => anfCoeff f.val S)).map
        (fun S => (spreadBits S qs, 0))) x
      = (((List.range (2 ^ f.numVars)).filter (fun S => anfCoeff f.val S)).filter
        (fun S => mcxFires (spreadBits S qs) 0 x)).length := by
    rw [firedCount_map]
  have hz := pkrm_count_parity f qs x hnd hlen
  have hiff : (firedCount
      (((List.range (2 ^ f.numVars)).filter (fun S => anfCoeff f.val S)).map
        (fun S => (spreadBits S qs, 0))) x % 2 = 1)
      ↔ f.val (extractBits x qs) = true := by
    rw [hcount, ← zmod_two_natCast_eq_one, hz]
    cases hfe : f.val (extractBits x qs)
    · simp
    · simp
  by_cases hfe : f.val (extractBits x qs) = true
  · rw [if_pos (hiff.mpr hfe), if_pos hfe]
  · rw [if_neg (fun hc => hfe (hiff.mp hc)), if_neg hfe]

/-- The pprm single-target gate XORs the target qubit with the function of
the control qubits and does nothing else. -/
theorem stg_pprm_action (f : TruthTable) (qs : List Nat) (t : Nat) (x : Nat) (ph : ℚ)
    (hnd : qs.Nodup) (ht : t ∉ qs) (hlen : qs.length = f.numVars) :
    simGates (stg_from_pprm f (qs ++ [t])) ⟨x, ph, none⟩ =
      some ⟨if f.val (extractBits x qs) then x ^^^ 2 ^ t else x, ph, none⟩ := by
  unfold stg_from_pprm
  rw [List.dropLast_concat, List.getLastD_concat]
  rw [simGates_mcxBlock _ t x ph (by
    intro p hp
    obtain ⟨S, hS, hps⟩ := List.mem_map.mp hp
    rw [← hps]
    exact spreadBits_testBit_not_mem S qs t ht)]
  have hcount : firedCount
      (((List.range (2 ^ f.numVars)).filter
          (fun S => anfCoeff (fun y => f.val (complN f.numVars y)) S)).map
        (fun S => (spreadBits S qs, spreadBits S qs))) x
      = (((List.range (2 ^ f.numVars)).filter
          (fun S => anfCoeff (fun y => f.val (complN f.numVars y)) S)).filter
        (fun S => mcxFires (spreadBits S qs) (spreadBits S qs) x)).length := by
    rw [firedCount_map]
  have hz := pprm_count_parity f qs x hnd hlen
  have hiff : (firedCount
      (((List.range (2 ^ f.numVars)).filter
          (fun S => anfCoeff (fun y => f.val (complN f.numVars y)) S)).map
        (fun S => (spreadBits S qs, spreadBits S qs))) x % 2 = 1)
      ↔ f.val (extractBits x qs) = true := by
    rw [hcount, ← zmod_two_natCast_eq_one, hz]
    cases hfe : f.val (extractBits x qs)
    · simp
    · simp
  by_cases hfe : f.val (extractBits x qs) = true
  · rw [if_pos (hiff.mpr hfe), if_pos hfe]
  · rw [if_neg (fun hc => hfe (hiff.mp hc)), if_neg hfe]

/-! ## Walsh–Hadamard spectrum -/

theorem and_div_two (a b : Nat) : (a &&& b) / 2 = (a / 2) &&& (b / 2) := by
  apply Nat.eq_of_testBit_eq
  intro i
  rw [Nat.testBit_div_two, Nat.testBit_and, Nat.testBit_and,
    Nat.testBit_div_two, Nat.testBit_div_two]

theorem and_mod_two_pow_right (S z n : Nat) (hS : S < 2 ^ n) :
    S &&& z = S &&& (z % 2 ^ n) := by
  apply Nat.eq_of_testBit_eq
  intro j
  rw [Nat.testBit_and, Nat.testBit_and, Nat.testBit_mod_two_pow]
  by_cases hj : j < n
  · simp [hj]
  · have : S.testBit j = false :=
      Nat.testBit_lt_two_pow
        (lt_of_lt_of_le hS (Nat.pow_le_pow_right (by omega) (by omega)))
    simp [this]

theorem testBit_two_pow_add (n x j : Nat) (hx : x < 2 ^ n) :
    (2 ^ n + x).testBit j = (decide (j = n) || x.testBit j) := by
  rcases Nat.lt_trichotomy j n with hj | hj | hj
  · rw [Nat.testBit_two_pow_add_gt hj]
    simp [Nat.ne_of_lt hj]
  · subst hj
    rw [Nat.testBit_two_pow_add_eq]
    have : x.testBit j = false := Nat.testBit_lt_two_pow hx
    simp [this]
  · have h1 : (2 ^ n + x).testBit j = false := by
      apply Nat.testBit_lt_two_pow
      have h2 : (2 : Nat) ^ (n + 1) ≤ 2 ^ j := Nat.pow_le_pow_right (by omega) (by omega)
      have h3 : (2 : Nat) ^ (n + 1) = 2 ^ n + 2 ^ n := by ring
      omega
    have h4 : x.testBit j = false :=
      Nat.testBit_lt_two_pow
        (lt_of_lt_of_le hx (Nat.pow_le_pow_right (by omega) (by omega)))
    simp [h1, h4, Nat.ne_of_gt hj]

theorem two_pow_add_and (n i z : Nat) (hi : i < 2 ^ n) :
    (2 ^ n + i) &&& z = (2 ^ n &&& z) ^^^ (i &&& z) := by
  apply Nat.eq_of_testBit_eq
  intro j
  rw [Nat.testBit_and, testBit_two_pow_add n i j hi, Nat.testBit_xor,
    Nat.testBit_and, Nat.testBit_and, Nat.testBit_two_pow]
  by_cases hj : j = n
  · subst hj
    have : i.testBit j = false :=
      Nat.testBit_lt_two_pow hi
    simp [this]
  · have hd : (decide (n = j)) = false := by
      simp only [decide_eq_false_iff_not]
      exact fun hc => hj hc.symm
    have hd2 : (decide (j = n)) = false := by
      simp only [decide_eq_false_iff_not]
      exact hj
    simp [hd, hd2]

theorem two_pow_and_eq (t z : Nat) :
    2 ^ t &&& z = if z.testBit t then 2 ^ t else 0 := by
  apply Nat.eq_of_testBit_eq
  intro j
  rw [Nat.testBit_and, Nat.testBit_two_pow]
  by_cases hj : j = t
  · subst hj
    cases hz : z.testBit j <;> simp [hz, Nat.testBit_two_pow_self]
  · have he : Nat.testBit (2 ^ t) j = false :=
      Nat.testBit_two_pow_of_ne (fun hc => hj hc.symm)
    cases hz : z.testBit t <;> simp [hz, he, Nat.zero_testBit] <;>
      exact fun hc => absurd hc.symm hj

theorem bitParity_two_pow_and (t z : Nat) :
    bitParity (2 ^ t &&& z) = z.testBit t := by
  rw [two_pow_and_eq]
  cases hz : z.testBit t <;> simp [hz, bitParity_zero, bitParity_two_pow]

/-- Orthogonality of the Walsh characters: the signed sum over all masks
vanishes except at `z = 0`. -/
theorem sgn_sum_orthogonal (n z : Nat) (hz : z < 2 ^ n) :
    ∑ S ∈ Finset.range (2 ^ n), (if bitParity (S &&& z) then (-1 : ℤ) else 1)
      = if z = 0 then (2 ^ n : ℤ) else 0 := by
  induction n generalizing z with
  | zero =>
      have hz0 : z = 0 := by
        have : (2 : Nat) ^ 0 = 1 := rfl
        omega
      subst hz0
      simp [bitParity_zero]
  | succ n ih =>
      have hsplit : ∑ S ∈ Finset.range (2 ^ (n + 1)),
            (if bitParity (S &&& z) then (-1 : ℤ) else 1)
          = (∑ S ∈ Finset.range (2 ^ n),
              (if bitParity (S &&& z) then (-1 : ℤ) else 1))
            + ∑ i ∈ Finset.range (2 ^ n),
              (if bitParity ((2 ^ n + i) &&& z) then (-1 : ℤ) else 1) := by
        have h1 : (∑ S ∈ Finset.Ico 0 (2 ^ n),
              (if bitParity (S &&& z) then (-1 : ℤ) else 1))
            + ∑ S ∈ Finset.Ico (2 ^ n) (2 ^ (n + 1)),
              (if bitParity (S &&& z) then (-1 : ℤ) else 1)
            = ∑ S ∈ Finset.Ico 0 (2 ^ (n + 1)),
              (if bitParity (S &&& z) then (-1 : ℤ) else 1) :=
          Finset.sum_Ico_consecutive _ (Nat.zero_le _)
            (Nat.pow_le_pow_right (by omega) (by omega))
        have h2 : ∑ S ∈ Finset.Ico (2 ^ n) (2 ^ (n + 1)),
              (if bitParity (S &&& z) then (-1 : ℤ) else 1)
            = ∑ i ∈ Finset.range (2 ^ (n + 1) - 2 ^ n),
              (if bitParity ((2 ^ n + i) &&& z) then (-1 : ℤ) else 1) :=
          Finset.sum_Ico_eq_sum_range _ _ _
        have h3 : 2 ^ (n + 1) - 2 ^ n = 2 ^ n := by
          have h4 : (2 : Nat) ^ (n + 1) = 2 ^ n + 2 ^ n := by ring
          omega
        rw [Finset.range_eq_Ico, ← h1, h2, h3, ← Finset.range_eq_Ico]
      rw [hsplit]
      have hup : ∀ i ∈ Finset.range (2 ^ n),
          (if bitParity ((2 ^ n + i) &&& z) then (-1 : ℤ) else 1)
            = (if z.testBit n then (-1 : ℤ) else 1)
              * (if bitParity (i &&& z) then (-1 : ℤ) else 1) := by
        intro i hi
        rw [two_pow_add_and n i z (Finset.mem_range.mp hi), bitParity_xor,
          bitParity_two_pow_and]
        cases hzn : z.testBit n <;> cases hp : bitParity (i &&& z) <;> simp
      rw [Finset.sum_congr rfl hup, ← Finset.mul_sum]
      have hlow : ∀ S ∈ Finset.range (2 ^ n),
          (if bitParity (S &&& z) then (-1 : ℤ) else 1)
            = (if bitParity (S &&& z % 2 ^ n) then (-1 : ℤ) else 1) := by
        intro S hS
        rw [← and_mod_two_pow_right S z n (Finset.mem_range.mp hS)]
      have hmod : z % 2 ^ n < 2 ^ n := Nat.mod_lt _ (by positivity)
      rw [Finset.sum_congr rfl hlow, ih (z % 2 ^ n) hmod]
      by_cases hzn : z.testBit n = true
      · have hzne : z ≠ 0 := by
          intro hz0
          rw [hz0, Nat.zero_testBit] at hzn
          exact Bool.false_ne_true hzn
        rw [hzn, if_neg hzne]
        by_cases hzm : z % 2 ^ n = 0 <;> simp [hzm] <;> ring
      · simp only [Bool.not_eq_true] at hzn
        have hzlt : z < 2 ^ n := by
          by_contra hge
          push_neg at hge
          have h1 : z < 2 ^ n + 2 ^ n := by
            have : (2 : Nat) ^ (n + 1) = 2 ^ n + 2 ^ n := by ring
            omega
          have h2 : z.testBit n = true := by
            have h3 : z / 2 ^ n = 1 :=
              Nat.div_eq_of_lt_le (by omega) (by omega)
            rw [Nat.testBit_to_div_mod, h3]
            rfl
          rw [h2] at hzn
          exact absurd hzn (by decide)
        have hzm : z % 2 ^ n = z := Nat.mod_eq_of_lt hzlt
        rw [hzn, hzm]
        by_cases hz0 : z = 0 <;> simp [hz0] <;> ring

/-- Modelled from the spec: the Walsh–Hadamard spectral coefficient of the
Boolean function `f` of arity `n` at mask `S` (§4.3). -/
def walsh (f : Nat → Bool) (n S : Nat) : ℤ :=
  ∑ y ∈ Finset.range (2 ^ n),
    (if f y then (-1 : ℤ) else 1) * (if bitParity (S &&& y) then (-1 : ℤ) else 1)

/-- Inverting the Walsh transform recovers the function's sign vector. -/
theorem walsh_inversion (f : Nat → Bool) (n x : Nat) (hx : x < 2 ^ n) :
    ∑ S ∈ Finset.range (2 ^ n),
      walsh f n S * (if bitParity (S &&& x) then (-1 : ℤ) else 1)
      = 2 ^ n * (if f x then -1 else 1) := by
  unfold walsh
  have h1 : ∀ S ∈ Finset.range (2 ^ n),
      (∑ y ∈ Finset.range (2 ^ n), (if f y then (-1:ℤ) else 1)
          * (if bitParity (S &&& y) then (-1:ℤ) else 1))
          * (if bitParity (S &&& x) then (-1:ℤ) else 1)
      = ∑ y ∈ Finset.range (2 ^ n), (if f y then (-1:ℤ) else 1)
          * (if bitParity (S &&& (y ^^^ x)) then (-1:ℤ) else 1) := by
    intro S _
    rw [Finset.sum_mul]
    apply Finset.sum_congr rfl
    intro y _
    rw [mul_assoc]
    congr 1
    rw [Nat.and_xor_distrib_left, bitParity_xor]
    cases hp : bitParity (S &&& y) <;> cases hq : bitParity (S &&& x) <;> simp
  rw [Finset.sum_congr rfl h1, Finset.sum_comm]
  have h2 : ∀ y ∈ Finset.range (2 ^ n),
      ∑ S ∈ Finset.range (2 ^ n),
        (if f y then (-1:ℤ) else 1) * (if bitParity (S &&& (y ^^^ x)) then (-1:ℤ) else 1)
      = (if f y then (-1:ℤ) else 1) * (if y ^^^ x = 0 then ((2:ℤ)^n) else 0) := by
    intro y hy
    rw [← Finset.mul_sum]
    congr 1
    exact sgn_sum_orthogonal n (y ^^^ x)
      (Nat.xor_lt_two_pow (Finset.mem_range.mp hy) hx)
  rw [Finset.sum_congr rfl h2]
  have h3 : ∀ y ∈ Finset.range (2 ^ n),
      (if f y then (-1:ℤ) else 1) * (if y ^^^ x = 0 then ((2:ℤ)^n) else 0)
      = (if y = x then (if f y then (-1:ℤ) else 1) * 2 ^ n else 0) := by
    intro y _
    by_cases hyx : y = x
    · subst hyx
      simp [Nat.xor_self]
    · have hne : y ^^^ x ≠ 0 := fun hc => hyx (Nat.xor_eq_zero.mp hc)
      simp [hne, hyx]
  rw [Finset.sum_congr rfl h3, Finset.sum_ite_eq' (Finset.range (2 ^ n)) x
      (fun y => (if f y then (-1:ℤ) else 1) * 2 ^ n), if_pos (Finset.mem_range.mpr hx)]
  ring

theorem or_eq_xor_of_disjoint (a b : Nat) (h : a &&& b = 0) : a ||| b = a ^^^ b := by
  apply Nat.eq_of_testBit_eq
  intro j
  have hj := congrArg (fun m => m.testBit j) h
  simp only [Nat.testBit_and, Nat.zero_testBit] at hj
  rw [Nat.testBit_or, Nat.testBit_xor]
  cases ha : a.testBit j <;> cases hb : b.testBit j <;> simp_all

theorem extractBits_cons_div (x q : Nat) (T : List Nat) :
    (extractBits x (q :: T)) / 2 = extractBits x T := by
  simp only [extractBits]
  cases x.testBit q
  · simp
  · simp
    omega

theorem extractBits_cons_testBit_zero (x q : Nat) (T : List Nat) :
    (extractBits x (q :: T)).testBit 0 = x.testBit q := by
  simp only [extractBits, Nat.testBit_zero]
  cases x.testBit q <;> simp <;> omega

/-- Parity of a basis state against a spread mask equals the parity of the
compressed mask against the extracted input. -/
theorem bitParity_and_spread (x S : Nat) (qs : List Nat) (hnd : qs.Nodup) :
    bitParity (x &&& spreadBits S qs) = bitParity (S &&& extractBits x qs) := by
  induction qs generalizing S with
  | nil => simp [spreadBits, extractBits, bitParity_zero]
  | cons q T ih =>
      obtain ⟨hqT, hndT⟩ := List.nodup_cons.mp hnd
      have hdisj : (if S % 2 = 1 then 2 ^ q else 0) &&& spreadBits (S / 2) T = 0 := by
        by_cases hs : S % 2 = 1
        · rw [if_pos hs, two_pow_and_eq, spreadBits_testBit_not_mem _ _ _ hqT]
          simp
        · rw [if_neg hs]
          simp
      have hsp : spreadBits S (q :: T)
          = (if S % 2 = 1 then 2 ^ q else 0) ^^^ spreadBits (S / 2) T := by
        rw [spreadBits, or_eq_xor_of_disjoint _ _ hdisj]
      rw [hsp, Nat.and_xor_distrib_left, bitParity_xor]
      have hA : bitParity (x &&& (if S % 2 = 1 then 2 ^ q else 0))
          = (decide (S % 2 = 1) && x.testBit q) := by
        by_cases hs : S % 2 = 1
        · rw [if_pos hs, Nat.and_comm, bitParity_two_pow_and]
          simp [hs]
        · rw [if_neg hs]
          simp [hs, bitParity_zero]
      rw [hA, ih (S / 2) hndT]
      rw [bitParity_eq (S &&& extractBits x (q :: T)), and_div_two,
        extractBits_cons_div]
      have hbit0 : decide ((S &&& extractBits x (q :: T)) % 2 = 1)
          = (decide (S % 2 = 1) && x.testBit q) := by
        have h0 := Nat.testBit_and S (extractBits x (q :: T)) 0
        rw [Nat.testBit_zero, Nat.testBit_zero, Nat.testBit_zero] at h0
        have h1 : decide ((extractBits x (q :: T)) % 2 = 1) = x.testBit q := by
          rw [← Nat.testBit_zero, extractBits_cons_testBit_zero]
        rw [h1] at h0
        exact h0
      rw [hbit0]

/-- A block of parity-phase gates described by mask/angle pairs. -/
def phaseBlock (L : List (Nat × ℚ)) : List Gate :=
  L.map (fun p => Gate.parityPhase p.1 p.2)

theorem simGates_phaseBlock (L : List (Nat × ℚ)) (q x : Nat) (ph a0 a1 : ℚ) :
    simGates (phaseBlock L) ⟨x, ph, some (q, a0, a1)⟩ =
      some ⟨x, ph, some (q,
        a0 + (L.map (fun p => phaseOf p.1 (setBit x q false) p.2)).sum,
        a1 + (L.map (fun p => phaseOf p.1 (setBit x q true) p.2)).sum)⟩ := by
  induction L generalizing a0 a1 with
  | nil => simp [phaseBlock, simGates]
  | cons p L ih =>
      have hstep : simGates (phaseBlock (p :: L)) ⟨x, ph, some (q, a0, a1)⟩ =
          simGates (phaseBlock L)
            ⟨x, ph, some (q, a0 + phaseOf p.1 (setBit x q false) p.2,
              a1 + phaseOf p.1 (setBit x q true) p.2)⟩ := rfl
      rw [hstep, ih]
      simp [add_assoc]

theorem simGates_single (g : Gate) (s : SimSt) : simGates [g] s = simStep g s := by
  cases h : simStep g s <;> simp [simGates, h]

/-- The parity-phase terms of the spectrum embedding: one term per nonzero
spectral coefficient, on the joint parity of the support qubits and the
target, plus a fixed `-π/2` correction on the target alone. -/
def spectrumTerms (fv : Nat → Bool) (n : Nat) (qs : List Nat) (t : Nat) :
    List (Nat × ℚ) :=
  (((List.range (2 ^ n)).filter (fun S => decide (walsh fv n S ≠ 0))).map
    (fun S => (spreadBits S qs ||| 2 ^ t, (walsh fv n S : ℚ) / 2 ^ (n + 1))))
    ++ [(2 ^ t, -(1 / 2 : ℚ))]

/-- Modelled from the spec: `tweedledum::stg_from_spectrum` (not under
`src/`; §4.3) — "builds the gate sequence from the function's
Walsh–Hadamard-like spectral decomposition, producing one
multi-controlled-phase-style term per nonzero spectral coefficient":
a Hadamard on the target, the spectral parity-phase rotations, and a
closing Hadamard. -/
def stg_from_spectrum (f : TruthTable) (qubits : List Nat) : List Gate :=
  [Gate.had (qubits.getLastD 0)] ++
    phaseBlock (spectrumTerms f.val f.numVars qubits.dropLast (qubits.getLastD 0)) ++
    [Gate.had (qubits.getLastD 0)]

theorem spectrum_mask_parity (S : Nat) (qs : List Nat) (t x : Nat) (b : Bool)
    (hnd : qs.Nodup) (ht : t ∉ qs) :
    bitParity ((setBit x t b) &&& (spreadBits S qs ||| 2 ^ t))
      = (bitParity (S &&& extractBits x qs)).xor b := by
  have hdisj : spreadBits S qs &&& 2 ^ t = 0 := by
    rw [Nat.and_comm, two_pow_and_eq, spreadBits_testBit_not_mem S qs t ht]
    simp
  rw [or_eq_xor_of_disjoint _ _ hdisj, Nat.and_xor_distrib_left, bitParity_xor]
  have h1 : (setBit x t b) &&& spreadBits S qs = x &&& spreadBits S qs := by
    apply Nat.eq_of_testBit_eq
    intro j
    rw [Nat.testBit_and, Nat.testBit_and]
    by_cases hj : j = t
    · subst hj
      rw [spreadBits_testBit_not_mem S qs j ht]
      simp
    · rw [testBit_setBit_ne x t b j hj]
  have h2 : bitParity ((setBit x t b) &&& 2 ^ t) = b := by
    rw [Nat.and_comm, bitParity_two_pow_and, testBit_setBit_self]
  rw [h1, h2, bitParity_and_spread x S qs hnd]

/-- The two Hadamard-branch phase totals of the spectrum terms differ by
exactly the function's value (in units of `π`). -/
theorem spectrumTerms_diff (fv : Nat → Bool) (n : Nat) (qs : List Nat) (t x : Nat)
    (hnd : qs.Nodup) (ht : t ∉ qs) (hlen : qs.length = n) :
    ((spectrumTerms fv n qs t).map
        (fun p => phaseOf p.1 (setBit x t false) p.2)).sum
      - ((spectrumTerms fv n qs t).map
        (fun p => phaseOf p.1 (setBit x t true) p.2)).sum
    = (if fv (extractBits x qs) then (1 : ℚ) else 0) := by
  have hel : extractBits x qs < 2 ^ n := by
    rw [← hlen]
    exact extractBits_lt x qs
  have hbig : ∀ b : Bool,
      ((((List.range (2 ^ n)).filter (fun S => decide (walsh fv n S ≠ 0))).map
          (fun S => (spreadBits S qs ||| 2 ^ t, (walsh fv n S : ℚ) / 2 ^ (n + 1)))).map
        (fun p => phaseOf p.1 (setBit x t b) p.2)).sum
      = ∑ S ∈ (Finset.range (2 ^ n)).filter
          (fun S => decide (walsh fv n S ≠ 0) = true),
          (if (bitParity (S &&& extractBits x qs)).xor b
            then (walsh fv n S : ℚ) / 2 ^ (n + 1) else 0) := by
    intro b
    rw [List.map_map, filter_range_map_sum]
    apply Finset.sum_congr rfl
    intro S _
    show phaseOf (spreadBits S qs ||| 2 ^ t) (setBit x t b)
        ((walsh fv n S : ℚ) / 2 ^ (n + 1)) = _
    unfold phaseOf
    rw [spectrum_mask_parity S qs t x b hnd ht]
  have hterm : ∀ S ∈ (Finset.range (2 ^ n)).filter
      (fun S => decide (walsh fv n S ≠ 0) = true),
      ((if (bitParity (S &&& extractBits x qs)).xor false
          then (walsh fv n S : ℚ) / 2 ^ (n + 1) else 0)
        - (if (bitParity (S &&& extractBits x qs)).xor true
          then (walsh fv n S : ℚ) / 2 ^ (n + 1) else 0))
      = -((walsh fv n S : ℚ)
          * (if bitParity (S &&& extractBits x qs) then (-1 : ℚ) else 1)) / 2 ^ (n + 1) := by
    intro S _
    cases hp : bitParity (S &&& extractBits x qs) <;> simp [hp] <;> ring
  have hfil : ∀ S ∈ Finset.range (2 ^ n),
      -((walsh fv n S : ℚ)
          * (if bitParity (S &&& extractBits x qs) then (-1 : ℚ) else 1)) / 2 ^ (n + 1) ≠ 0
      → decide (walsh fv n S ≠ 0) = true := by
    intro S _ hne
    simp only [decide_eq_true_eq]
    intro hw
    apply hne
    rw [hw]
    simp
  have hwiq : ∑ S ∈ Finset.range (2 ^ n),
      ((walsh fv n S : ℚ)
        * (if bitParity (S &&& extractBits x qs) then (-1 : ℚ) else 1))
      = 2 ^ n * (if fv (extractBits x qs) then (-1 : ℚ) else 1) := by
    have h := walsh_inversion fv n (extractBits x qs) hel
    have h2 := congrArg (fun z : ℤ => (z : ℚ)) h
    push_cast [apply_ite (fun z : ℤ => (z : ℚ))] at h2
    exact h2
  have hbd : (∑ S ∈ (Finset.range (2 ^ n)).filter
        (fun S => decide (walsh fv n S ≠ 0) = true),
        (if (bitParity (S &&& extractBits x qs)).xor false
          then (walsh fv n S : ℚ) / 2 ^ (n + 1) else 0))
      - (∑ S ∈ (Finset.range (2 ^ n)).filter
        (fun S => decide (walsh fv n S ≠ 0) = true),
        (if (bitParity (S &&& extractBits x qs)).xor true
          then (walsh fv n S : ℚ) / 2 ^ (n + 1) else 0))
      = (if fv (extractBits x qs) then (1 : ℚ) else 0) - 1 / 2 := by
    rw [← Finset.sum_sub_distrib, Finset.sum_congr rfl hterm,
      Finset.sum_filter_of_ne hfil, ← Finset.sum_div, Finset.sum_neg_distrib,
      hwiq]
    have hpow : ((2 : ℚ) ^ (n + 1)) = 2 ^ n * 2 := by ring
    have hne : ((2 : ℚ) ^ n) ≠ 0 := by positivity
    cases hfe : fv (extractBits x qs) <;> rw [hpow] <;> field_simp <;> ring
  unfold spectrumTerms
  rw [List.map_append, List.sum_append, List.map_append, List.sum_append,
    hbig false, hbig true]
  have hpar0 : bitParity ((setBit x t false) &&& 2 ^ t) = false := by
    rw [Nat.and_comm, bitParity_two_pow_and, testBit_setBit_self]
  have hpar1 : bitParity ((setBit x t true) &&& 2 ^ t) = true := by
    rw [Nat.and_comm, bitParity_two_pow_and, testBit_setBit_self]
  have hc0 : (([((2:Nat) ^ t, -(1 / 2 : ℚ))]).map
      (fun p => phaseOf p.1 (setBit x t false) p.2)).sum = 0 := by
    simp [phaseOf, hpar0]
  have hc1 : (([((2:Nat) ^ t, -(1 / 2 : ℚ))]).map
      (fun p => phaseOf p.1 (setBit x t true) p.2)).sum = -(1/2 : ℚ) := by
    simp [phaseOf, hpar1]
  rw [hc0, hc1]
  linarith [hbd]

theorem rat_floor_eq_int_floor (a : ℚ) : (Rat.floor a : ℤ) = ⌊a⌋ := rfl

theorem fract2_zero : fract2 0 = 0 := by
  unfold fract2
  rw [rat_floor_eq_int_floor]
  norm_num

theorem fract2_one : fract2 1 = 1 := by
  unfold fract2
  rw [rat_floor_eq_int_floor]
  norm_num

theorem fract2_neg_one : fract2 (-1) = 1 := by
  unfold fract2
  rw [rat_floor_eq_int_floor]
  norm_num

theorem simStep_close (t : Nat) (x : Nat) (ph A0 A1 : ℚ) :
    simStep (Gate.had t) ⟨x, ph, some (t, A0, A1)⟩ =
      (if fract2 (A0 - A1) = 0 then some ⟨setBit x t false, ph + A0, none⟩
       else if fract2 (A0 - A1) = 1 then some ⟨setBit x t true, ph + A0, none⟩
       else none) := by
  simp [simStep]

/-- The spectrum single-target gate XORs the target qubit with the function
of the control qubits (up to a global phase). -/
theorem stg_spectrum_action (f : TruthTable) (qs : List Nat) (t x : Nat) (ph : ℚ)
    (hnd : qs.Nodup) (ht : t ∉ qs) (hlen : qs.length = f.numVars) :
    ∃ ph2, simGates (stg_from_spectrum f (qs ++ [t])) ⟨x, ph, none⟩ =
      some ⟨if f.val (extractBits x qs) then x ^^^ 2 ^ t else x, ph2, none⟩ := by
  have hstep1 : simGates (stg_from_spectrum f (qs ++ [t])) ⟨x, ph, none⟩
      = simGates (phaseBlock (spectrumTerms f.val f.numVars qs t) ++ [Gate.had t])
          ⟨x, ph, some (t, 0, if x.testBit t then (1:ℚ) else 0)⟩ := by
    unfold stg_from_spectrum
    rw [List.dropLast_concat, List.getLastD_concat]
    rfl
  refine ⟨ph + (0 + ((spectrumTerms f.val f.numVars qs t).map
    (fun p => phaseOf p.1 (setBit x t false) p.2)).sum), ?_⟩
  rw [hstep1, simGates_append, simGates_phaseBlock, Option.some_bind,
    simGates_single, simStep_close]
  have h := spectrumTerms_diff f.val f.numVars qs t x hnd ht hlen
  generalize hS0 : ((spectrumTerms f.val f.numVars qs t).map
    (fun p => phaseOf p.1 (setBit x t false) p.2)).sum = S0 at h ⊢
  generalize hS1 : ((spectrumTerms f.val f.numVars qs t).map
    (fun p => phaseOf p.1 (setBit x t true) p.2)).sum = S1 at h ⊢
  cases hfe : f.val (extractBits x qs) with
  | true =>
      rw [hfe] at h
      cases hxb : x.testBit t with
      | true =>
          norm_num at h ⊢
          have hd : (S0 : ℚ) - (1 + S1) = 0 := by linarith
          rw [hd, fract2_zero, if_pos rfl]
          have hsb : setBit x t false = x ^^^ 2 ^ t := by
            unfold setBit
            rw [hxb]
            simp
          rw [hsb]
      | false =>
          norm_num at h ⊢
          have hd : (S0 : ℚ) - S1 = 1 := by linarith
          rw [hd, fract2_one]
          rw [if_neg (by norm_num), if_pos rfl]
          have hsb : setBit x t true = x ^^^ 2 ^ t := by
            unfold setBit
            rw [hxb]
            simp
          rw [hsb]
  | false =>
      rw [hfe] at h
      cases hxb : x.testBit t with
      | true =>
          norm_num at h ⊢
          have hd : (S0 : ℚ) - (1 + S1) = -1 := by linarith
          rw [hd, fract2_neg_one]
          rw [if_neg (by norm_num), if_pos rfl]
          have hsb : setBit x t true = x := by
            unfold setBit
            rw [hxb]
            simp
          rw [hsb]
      | false =>
          norm_num at h ⊢
          have hd : (S0 : ℚ) - S1 = 0 := by linarith
          rw [hd, fract2_zero, if_pos rfl]
          have hsb : setBit x t false = x := by
            unfold setBit
            rw [hxb]
            simp
          rw [hsb]

/-! ## The `oracle_synth` binding (src/ext/synthesis.cpp, lines 97–145) -/

theorem extractBits_range (x n : Nat) :
    extractBits x (List.range n) = x % 2 ^ n := by
  apply Nat.eq_of_testBit_eq
  intro i
  rw [Nat.testBit_mod_two_pow]
  by_cases hi : i < n
  · have hlen : i < (List.range n).length := by
      rw [List.length_range]
      exact hi
    rw [extractBits_testBit x (List.range n) i hlen, List.get_range]
    simp [hi]
  · have h1 : (extractBits x (List.range n)).testBit i = false := by
      apply Nat.testBit_lt_two_pow
      have h2 := extractBits_lt x (List.range n)
      rw [List.length_range] at h2
      exact lt_of_lt_of_le h2 (Nat.pow_le_pow_right (by omega) (by omega))
    simp [h1, hi]

/-- The kind dispatch of the `oracle_synth` and `dbs` bindings: the
`oracle_synth_type` enumeration is modelled by its underlying value
(`0 = pkrm`, `1 = pprm`, `2 = spectrum`), and the switch's `default`
label makes every other value fall through to spectrum. -/
def stgDispatch (kind : Nat) (f : TruthTable) (qubits : List Nat) : List Gate :=
  if kind = 0 then stg_from_pkrm f qubits
  else if kind = 1 then stg_from_pprm f qubits
  else stg_from_spectrum f qubits

theorem stgDispatch_action (kind : Nat) (f : TruthTable) (qs : List Nat)
    (t x : Nat) (ph : ℚ)
    (hnd : qs.Nodup) (ht : t ∉ qs) (hlen : qs.length = f.numVars) :
    ∃ ph2, simGates (stgDispatch kind f (qs ++ [t])) ⟨x, ph, none⟩ =
      some ⟨if f.val (extractBits x qs) then x ^^^ 2 ^ t else x, ph2, none⟩ := by
  unfold stgDispatch
  by_cases h0 : kind = 0
  · rw [if_pos h0]
    exact ⟨ph, stg_pkrm_action f qs t x ph hnd ht hlen⟩
  · rw [if_neg h0]
    by_cases h1 : kind = 1
    · rw [if_pos h1]
      exact ⟨ph, stg_pprm_action f qs t x ph hnd ht hlen⟩
    · rw [if_neg h1]
      exact stg_spectrum_action f qs t x ph hnd ht hlen

/-- The `oracle_synth` binding (src lines 110–134): allocates
`num_vars + 1` qubits, fills the qubit vector with `0, …, num_vars` by
`std::iota`, and dispatches on the synthesis kind. -/
def oracle_synth (function : TruthTable) (kind : Nat) : Netlist :=
  { numQubits := function.numVars + 1,
    gates := stgDispatch kind function (List.range (function.numVars + 1)) }

/-- The oracle netlist flips the last qubit by the function of the first
`num_vars` qubits, for every synthesis kind. -/
theorem oracle_synth_action (f : TruthTable) (kind : Nat) (x : Nat) :
    action (oracle_synth f kind) x
      = some (if f.val (x % 2 ^ f.numVars) then x ^^^ 2 ^ f.numVars else x) := by
  obtain ⟨ph2, hg⟩ := stgDispatch_action kind f (List.range f.numVars)
    f.numVars x 0 (List.nodup_range _) (by simp) (List.length_range _)
  rw [← List.range_succ, extractBits_range] at hg
  unfold action simulate
  have hg2 : simGates (oracle_synth f kind).gates ⟨x, 0, none⟩
      = some ⟨if f.val (x % 2 ^ f.numVars) then x ^^^ 2 ^ f.numVars else x,
          ph2, none⟩ := hg
  rw [hg2]
  rfl

/-! ## Transformation-based synthesis (the `tbs` binding, src line 185)

`tweedledum::tbs` is not part of this repository's sources; the
unidirectional transformation-based synthesis it implements is modelled
from the specification (§4.4): walk the output rows in increasing order
and, for each row whose current image differs, emit the multi-controlled
flips (lowest rows first, the canonical deterministic ordering) that move
the image onto the row without disturbing the earlier rows, applying each
flip to the whole permutation; the collected gates reversed form the
netlist. -/

/-- Apply one control-mask/target-mask pair to a value: when every control
bit is set, XOR the target mask in. -/
def applyPair (p : Nat × Nat) (z : Nat) : Nat :=
  if z &&& p.1 = p.1 then z ^^^ p.2 else z

/-- The gate pairs that move the image `y` of row `i` onto `i`: first set
the bits of `i` missing from `y` (controlled on `y`), then clear the bits
of `y` not in `i` (controlled on `i`). -/
def tbsMove (i y : Nat) : List (Nat × Nat) :=
  (if i ^^^ (i &&& y) ≠ 0 then [(y, i ^^^ (i &&& y))] else [])
    ++ (if y ^^^ (i &&& y) ≠ 0 then [(i, y ^^^ (i &&& y))] else [])

/-- Apply a list of gate pairs to every entry of the permutation. -/
def tbsUpdate (π : List Nat) (ps : List (Nat × Nat)) : List Nat :=
  ps.foldl (fun π p => π.map (applyPair p)) π

/-- The main loop of transformation-based synthesis, collecting gate pairs
in emission order. -/
def tbsGo (π : List Nat) (i fuel : Nat) : List (Nat × Nat) :=
  match fuel with
  | 0 => []
  | fuel + 1 =>
      let gs := tbsMove i (π.getD i 0)
      gs ++ tbsGo (tbsUpdate π gs) (i + 1) fuel

/-- Expand a control/target-mask pair into one multi-controlled flip per
target bit. -/
def pairGates (n : Nat) (p : Nat × Nat) : List Gate :=
  ((List.range n).filter (fun b => p.2.testBit b)).map (fun b => Gate.mcx p.1 0 b)

/-- Modelled from the spec: the `tbs` binding
(`tweedledum::tbs`, not under `src/`) — transformation-based synthesis of
a permutation of `{0, …, 2^n − 1}`. -/
def tbs (perm : List Nat) : Netlist :=
  { numQubits := perm.length.log2,
    gates := ((tbsGo perm 0 perm.length).reverse).flatMap
      (pairGates perm.length.log2) }

theorem applyPair_involutive (p : Nat × Nat) (h : p.1 &&& p.2 = 0) (z : Nat) :
    applyPair p (applyPair p z) = z := by
  unfold applyPair
  by_cases hf : z &&& p.1 = p.1
  · rw [if_pos hf]
    have hf2 : (z ^^^ p.2) &&& p.1 = z &&& p.1 := by
      rw [Nat.and_xor_distrib_right]
      have h2 : p.2 &&& p.1 = 0 := by
        rw [Nat.and_comm]
        exact h
      rw [h2, Nat.xor_zero]
    rw [if_pos (by rw [hf2]; exact hf), Nat.xor_assoc, Nat.xor_self, Nat.xor_zero]
  · rw [if_neg hf, if_neg hf]

theorem applyPair_lt (p : Nat × Nat) (n : Nat) (hp : p.2 < 2 ^ n) (z : Nat)
    (hz : z < 2 ^ n) : applyPair p z < 2 ^ n := by
  unfold applyPair
  by_cases hf : z &&& p.1 = p.1
  · rw [if_pos hf]
    exact Nat.xor_lt_two_pow hz hp
  · rw [if_neg hf]
    exact hz

theorem applyPair_injective (p : Nat × Nat) (h : p.1 &&& p.2 = 0) :
    Function.Injective (applyPair p) := by
  intro a b hab
  have := congrArg (applyPair p) hab
  rwa [applyPair_involutive p h, applyPair_involutive p h] at this

/-- The two bit identities behind the transformation-based move. -/
theorem tbs_bit_set (i y : Nat) : y ^^^ (i ^^^ (i &&& y)) = y ||| i := by
  apply Nat.eq_of_testBit_eq
  intro j
  simp only [Nat.testBit_xor, Nat.testBit_and, Nat.testBit_or]
  cases hy : y.testBit j <;> cases hi : i.testBit j <;> rfl

theorem tbs_bit_clear (i y : Nat) : (y ||| i) ^^^ (y ^^^ (i &&& y)) = i := by
  apply Nat.eq_of_testBit_eq
  intro j
  simp only [Nat.testBit_xor, Nat.testBit_and, Nat.testBit_or]
  cases hy : y.testBit j <;> cases hi : i.testBit j <;> rfl

theorem tbs_move_ctrl_disjoint_1 (i y : Nat) : y &&& (i ^^^ (i &&& y)) = 0 := by
  apply Nat.eq_of_testBit_eq
  intro j
  simp only [Nat.testBit_xor, Nat.testBit_and, Nat.zero_testBit]
  cases hy : y.testBit j <;> cases hi : i.testBit j <;> rfl

theorem tbs_move_ctrl_disjoint_2 (i y : Nat) : i &&& (y ^^^ (i &&& y)) = 0 := by
  apply Nat.eq_of_testBit_eq
  intro j
  simp only [Nat.testBit_xor, Nat.testBit_and, Nat.zero_testBit]
  cases hy : y.testBit j <;> cases hi : i.testBit j <;> rfl

theorem tbs_t01_le (i y : Nat) : i ^^^ (i &&& y) ≤ i :=
  subMask_le (by
    rw [subMask_iff]
    intro j hj
    simp only [Nat.testBit_xor, Nat.testBit_and] at hj
    cases hi : i.testBit j
    · rw [hi] at hj
      simp at hj
    · rfl)

theorem tbs_t10_le (i y : Nat) : y ^^^ (i &&& y) ≤ y :=
  subMask_le (by
    rw [subMask_iff]
    intro j hj
    simp only [Nat.testBit_xor, Nat.testBit_and] at hj
    cases hy : y.testBit j
    · rw [hy] at hj
      simp at hj
    · rfl)

theorem or_and_absorb (y i : Nat) : (y ||| i) &&& i = i := by
  apply Nat.eq_of_testBit_eq
  intro j
  simp only [Nat.testBit_and, Nat.testBit_or]
  cases hy : y.testBit j <;> cases hi : i.testBit j <;> rfl

theorem or_eq_right_of_and (i y : Nat) (h : i &&& y = y) : y ||| i = i := by
  apply Nat.eq_of_testBit_eq
  intro j
  have hj := congrArg (fun m => m.testBit j) h
  simp only [Nat.testBit_and] at hj
  simp only [Nat.testBit_or]
  cases hy : y.testBit j <;> cases hi : i.testBit j <;> rw [hy, hi] at hj <;>
    simp_all

/-- The transformation-based move maps the row image `y` onto the row
index `i`. -/
theorem tbsMove_maps (i y : Nat) :
    (tbsMove i y).foldl (fun w p => applyPair p w) y = i := by
  unfold tbsMove
  have hfire1 : y &&& y = y := Nat.and_self y
  by_cases h1 : i ^^^ (i &&& y) ≠ 0 <;> by_cases h2 : y ^^^ (i &&& y) ≠ 0
  · rw [if_pos h1, if_pos h2]
    show applyPair (i, y ^^^ (i &&& y)) (applyPair (y, i ^^^ (i &&& y)) y) = i
    unfold applyPair
    rw [if_pos hfire1, tbs_bit_set, if_pos (or_and_absorb y i), tbs_bit_clear]
  · rw [if_pos h1, if_neg h2]
    push_neg at h2
    have h2e : i &&& y = y := (Nat.xor_eq_zero.mp h2).symm
    show applyPair (y, i ^^^ (i &&& y)) y = i
    unfold applyPair
    rw [if_pos hfire1, tbs_bit_set, or_eq_right_of_and i y h2e]
  · rw [if_neg h1, if_pos h2]
    push_neg at h1
    have h1e : i &&& y = i := (Nat.xor_eq_zero.mp h1).symm
    show applyPair (i, y ^^^ (i &&& y)) y = i
    unfold applyPair
    rw [h1e]
    have hfy : y &&& i = i := by
      rw [Nat.and_comm]
      exact h1e
    rw [if_pos hfy, ← Nat.xor_assoc, Nat.xor_self, Nat.zero_xor]
  · rw [if_neg h1, if_neg h2]
    push_neg at h1 h2
    have h1e : i &&& y = i := (Nat.xor_eq_zero.mp h1).symm
    have h2e : i &&& y = y := (Nat.xor_eq_zero.mp h2).symm
    show y = i
    rw [← h2e, h1e]

/-- Values below the row index are not moved (given `i ≤ y`). -/
theorem tbsMove_fix_lt (i y z : Nat) (hiy : i ≤ y) (hz : z < i) :
    (tbsMove i y).foldl (fun w p => applyPair p w) z = z := by
  unfold tbsMove
  have hg1 : applyPair (y, i ^^^ (i &&& y)) z = z := by
    unfold applyPair
    rw [if_neg]
    intro hc
    have hc2 : z &&& y = y := hc
    have hyz : y ≤ z := by
      rw [← hc2]
      exact Nat.and_le_left
    omega
  have hg2 : applyPair (i, y ^^^ (i &&& y)) z = z := by
    unfold applyPair
    rw [if_neg]
    intro hc
    have hc2 : z &&& i = i := hc
    have hiz : i ≤ z := by
      rw [← hc2]
      exact Nat.and_le_left
    omega
  by_cases h1 : i ^^^ (i &&& y) ≠ 0 <;> by_cases h2 : y ^^^ (i &&& y) ≠ 0
  · rw [if_pos h1, if_pos h2]
    show applyPair (i, y ^^^ (i &&& y)) (applyPair (y, i ^^^ (i &&& y)) z) = z
    rw [hg1, hg2]
  · rw [if_pos h1, if_neg h2]
    show applyPair (y, i ^^^ (i &&& y)) z = z
    exact hg1
  · rw [if_neg h1, if_pos h2]
    show applyPair (i, y ^^^ (i &&& y)) z = z
    exact hg2
  · rw [if_neg h1, if_neg h2]
    rfl

theorem tbsMove_mem (i y : Nat) (p : Nat × Nat) (hp : p ∈ tbsMove i y) :
    p = (y, i ^^^ (i &&& y)) ∨ p = (i, y ^^^ (i &&& y)) := by
  unfold tbsMove at hp
  by_cases h1 : i ^^^ (i &&& y) ≠ 0 <;> by_cases h2 : y ^^^ (i &&& y) ≠ 0 <;>
    simp [h1, h2] at hp <;> tauto

theorem getD_eq_get {α : Type _} (l : List α) (x : Nat) (d : α)
    (hx : x < l.length) : l.getD x d = l.get ⟨x, hx⟩ := by
  rw [List.getD_eq_getElem?_getD, List.getElem?_eq_getElem hx]
  rfl

theorem getD_map_lt {α β : Type _} (f : α → β) (l : List α) (x : Nat) (d : β)
    (d2 : α) (hx : x < l.length) :
    (l.map f).getD x d = f (l.getD x d2) := by
  rw [getD_eq_get (l.map f) x d (by rw [List.length_map]; exact hx),
    getD_eq_get l x d2 hx, List.get_map]

theorem tbsUpdate_length (π : List Nat) (ps : List (Nat × Nat)) :
    (tbsUpdate π ps).length = π.length := by
  unfold tbsUpdate
  induction ps generalizing π with
  | nil => rfl
  | cons p ps ih =>
      rw [List.foldl_cons, ih, List.length_map]

theorem tbsUpdate_getD (π : List Nat) (ps : List (Nat × Nat)) (x : Nat)
    (hx : x < π.length) :
    (tbsUpdate π ps).getD x 0
      = ps.foldl (fun w p => applyPair p w) (π.getD x 0) := by
  unfold tbsUpdate
  induction ps generalizing π with
  | nil => rfl
  | cons p ps ih =>
      rw [List.foldl_cons, List.foldl_cons,
        ih (π.map (applyPair p)) (by rw [List.length_map]; exact hx),
        getD_map_lt (applyPair p) π x 0 0 hx]

theorem foldr_foldl_cancel (ps : List (Nat × Nat))
    (h : ∀ p ∈ ps, p.1 &&& p.2 = 0) (z : Nat) :
    ps.foldr applyPair (ps.foldl (fun w p => applyPair p w) z) = z := by
  induction ps generalizing z with
  | nil => rfl
  | cons p ps ih =>
      rw [List.foldl_cons, List.foldr_cons,
        ih (fun q hq => h q (List.mem_cons_of_mem p hq)) (applyPair p z),
        applyPair_involutive p (h p (List.mem_cons_self p ps)) z]

theorem tbsUpdate_nodup (π : List Nat) (ps : List (Nat × Nat))
    (h : ∀ p ∈ ps, p.1 &&& p.2 = 0) (hnd : π.Nodup) : (tbsUpdate π ps).Nodup := by
  unfold tbsUpdate
  induction ps generalizing π with
  | nil => exact hnd
  | cons p ps ih =>
      rw [List.foldl_cons]
      exact ih (π.map (applyPair p)) (fun q hq => h q (List.mem_cons_of_mem p hq))
        (List.Nodup.map
          (applyPair_injective p (h p (List.mem_cons_self p ps))) hnd)

theorem tbsUpdate_mem_lt (π : List Nat) (ps : List (Nat × Nat)) (n : Nat)
    (hps : ∀ p ∈ ps, p.2 < 2 ^ n) (hbd : ∀ z ∈ π, z < 2 ^ n) :
    ∀ z ∈ tbsUpdate π ps, z < 2 ^ n := by
  unfold tbsUpdate
  induction ps generalizing π with
  | nil => exact hbd
  | cons p ps ih =>
      rw [List.foldl_cons]
      apply ih (π.map (applyPair p)) (fun q hq => hps q (List.mem_cons_of_mem p hq))
      intro z hz
      obtain ⟨w, hw, hwz⟩ := List.mem_map.mp hz
      rw [← hwz]
      exact applyPair_lt p n (hps p (List.mem_cons_self p ps)) w (hbd w hw)

/-- Main loop invariant of transformation-based synthesis: the collected
gate pairs, folded over any basis state, recover the input permutation;
and every collected pair is well formed. -/
theorem tbsGo_correct (n : Nat) (fuel : Nat) :
    ∀ (i : Nat) (π : List Nat),
      i + fuel = π.length → π.length = 2 ^ n → π.Nodup →
      (∀ z ∈ π, z < 2 ^ n) → (∀ j, j < i → π.getD j 0 = j) →
      (∀ x, x < 2 ^ n → (tbsGo π i fuel).foldr applyPair x = π.getD x 0)
      ∧ (∀ p ∈ tbsGo π i fuel, p.1 &&& p.2 = 0 ∧ p.2 < 2 ^ n) := by
  induction fuel with
  | zero =>
      intro i π hif hlen hnd hbd hpre
      constructor
      · intro x hx
        show x = π.getD x 0
        exact (hpre x (by omega)).symm
      · intro p hp
        simp [tbsGo] at hp
  | succ fuel ih =>
      intro i π hif hlen hnd hbd hpre
      have hi_lt : i < π.length := by omega
      have hymem : π.getD i 0 ∈ π := by
        rw [getD_eq_get π i 0 hi_lt]
        exact List.get_mem π i hi_lt
      have hylt : π.getD i 0 < 2 ^ n := hbd _ hymem
      have hilt : i < 2 ^ n := by omega
      have hyi : i ≤ π.getD i 0 := by
        by_contra hlt
        push_neg at hlt
        have hygd : π.getD (π.getD i 0) 0 = π.getD i 0 := hpre _ hlt
        have hylen : π.getD i 0 < π.length := by omega
        have hinj : π.get ⟨i, hi_lt⟩ = π.get ⟨π.getD i 0, hylen⟩ := by
          rw [← getD_eq_get π i 0 hi_lt, ← getD_eq_get π (π.getD i 0) 0 hylen,
            hygd]
        have heq := (List.Nodup.get_inj_iff hnd).mp hinj
        have : i = π.getD i 0 := congrArg Fin.val heq
        omega
      have hgprop : ∀ p ∈ tbsMove i (π.getD i 0), p.1 &&& p.2 = 0 ∧ p.2 < 2 ^ n := by
        intro p hp
        rcases tbsMove_mem i (π.getD i 0) p hp with h | h <;> subst h
        · exact ⟨tbs_move_ctrl_disjoint_1 i (π.getD i 0),
            lt_of_le_of_lt (tbs_t01_le i (π.getD i 0)) hilt⟩
        · exact ⟨tbs_move_ctrl_disjoint_2 i (π.getD i 0),
            lt_of_le_of_lt (tbs_t10_le i (π.getD i 0)) hylt⟩
      have hlen2 : (tbsUpdate π (tbsMove i (π.getD i 0))).length = 2 ^ n := by
        rw [tbsUpdate_length, hlen]
      have hnd2 : (tbsUpdate π (tbsMove i (π.getD i 0))).Nodup :=
        tbsUpdate_nodup π _ (fun p hp => (hgprop p hp).1) hnd
      have hbd2 : ∀ z ∈ tbsUpdate π (tbsMove i (π.getD i 0)), z < 2 ^ n :=
        tbsUpdate_mem_lt π _ n (fun p hp => (hgprop p hp).2) hbd
      have hpre2 : ∀ j, j < i + 1 →
          (tbsUpdate π (tbsMove i (π.getD i 0))).getD j 0 = j := by
        intro j hj
        rw [tbsUpdate_getD π _ j (by omega)]
        by_cases hji : j < i
        · rw [hpre j hji]
          exact tbsMove_fix_lt i (π.getD i 0) j hyi hji
        · have hje : j = i := by omega
          subst hje
          exact tbsMove_maps j (π.getD j 0)
      obtain ⟨ih1, ih2⟩ := ih (i + 1) (tbsUpdate π (tbsMove i (π.getD i 0)))
        (by rw [tbsUpdate_length]; omega) hlen2 hnd2 hbd2 hpre2
      constructor
      · intro x hx
        show (tbsMove i (π.getD i 0)
            ++ tbsGo (tbsUpdate π (tbsMove i (π.getD i 0))) (i + 1) fuel).foldr
            applyPair x = π.getD x 0
        rw [List.foldr_append, ih1 x hx,
          tbsUpdate_getD π _ x (by omega)]
        exact foldr_foldl_cancel _ (fun p hp => (hgprop p hp).1) (π.getD x 0)
      · intro p hp
        have hp2 : p ∈ tbsMove i (π.getD i 0)
            ++ tbsGo (tbsUpdate π (tbsMove i (π.getD i 0))) (i + 1) fuel := hp
        rcases List.mem_append.mp hp2 with h | h
        · exact hgprop p h
        · exact ih2 p h

/-- XOR of the powers of two named by a bit list. -/
def sumMask : List Nat → Nat
  | [] => 0
  | b :: bs => 2 ^ b ^^^ sumMask bs

theorem sumMask_filter_range (n tm : Nat) :
    sumMask ((List.range n).filter (fun b => tm.testBit b)) = tm % 2 ^ n := by
  induction n with
  | zero =>
      simp [sumMask, Nat.mod_one]
  | succ n ih =>
      rw [List.range_succ, List.filter_append]
      have hsm : ∀ a b : List Nat, sumMask (a ++ b) = sumMask a ^^^ sumMask b := by
        intro a b
        induction a with
        | nil => simp [sumMask]
        | cons q a iha => rw [List.cons_append]; simp only [sumMask, iha, Nat.xor_assoc]
      rw [hsm, ih]
      by_cases hb : tm.testBit n
      · have hf : List.filter (fun b => tm.testBit b) [n] = [n] := by
          simp [List.filter, hb]
        rw [hf]
        show tm % 2 ^ n ^^^ (2 ^ n ^^^ sumMask []) = tm % 2 ^ (n + 1)
        apply Nat.eq_of_testBit_eq
        intro j
        simp only [sumMask, Nat.xor_zero, Nat.testBit_xor, Nat.testBit_mod_two_pow,
          Nat.testBit_two_pow]
        rcases Nat.lt_trichotomy j n with hj | hj | hj
        · have hd : (decide (n = j)) = false := by
            simp only [decide_eq_false_iff_not]
            omega
          simp [hj, Nat.lt_succ_of_lt hj, hd]
        · subst hj
          simp [hb, Nat.lt_irrefl, Nat.lt_succ_self]
        · have hd : (decide (n = j)) = false := by
            simp only [decide_eq_false_iff_not]
            omega
          have hd2 : (decide (j < n + 1)) = false := by
            simp only [decide_eq_false_iff_not]
            omega
          have hd3 : (decide (j < n)) = false := by
            simp only [decide_eq_false_iff_not]
            omega
          simp [hd, hd2, hd3]
      · have hf : List.filter (fun b => tm.testBit b) [n] = [] := by
          simp [List.filter, hb]
        rw [hf]
        show tm % 2 ^ n ^^^ sumMask [] = tm % 2 ^ (n + 1)
        apply Nat.eq_of_testBit_eq
        intro j
        simp only [sumMask, Nat.xor_zero, Nat.testBit_mod_two_pow]
        rcases Nat.lt_trichotomy j n with hj | hj | hj
        · simp [hj, Nat.lt_succ_of_lt hj]
        · subst hj
          simp only [Bool.not_eq_true] at hb
          simp [hb, Nat.lt_irrefl, Nat.lt_succ_self]
        · have hd2 : (decide (j < n + 1)) = false := by
            simp only [decide_eq_false_iff_not]
            omega
          have hd3 : (decide (j < n)) = false := by
            simp only [decide_eq_false_iff_not]
            omega
          simp [hd2, hd3]

theorem simGates_flipList (c : Nat) (bs : List Nat) (z : Nat) (ph : ℚ)
    (hc : ∀ b ∈ bs, c.testBit b = false) :
    simGates (bs.map (fun b => Gate.mcx c 0 b)) ⟨z, ph, none⟩ =
      some ⟨if z &&& c = c then z ^^^ sumMask bs else z, ph, none⟩ := by
  induction bs generalizing z with
  | nil =>
      by_cases hf : z &&& c = c <;> simp [simGates, hf, sumMask]
  | cons b bs ih =>
      have hstep : simGates ((b :: bs).map (fun q => Gate.mcx c 0 q)) ⟨z, ph, none⟩
          = simGates (bs.map (fun q => Gate.mcx c 0 q))
              ⟨if mcxFires c 0 z then z ^^^ 2 ^ b else z, ph, none⟩ := rfl
      rw [hstep]
      have hcrest : ∀ q ∈ bs, c.testBit q = false :=
        fun q hq => hc q (List.mem_cons_of_mem b hq)
      have hcb : c.testBit b = false := hc b (List.mem_cons_self b bs)
      by_cases hf : z &&& c = c
      · have hfire : mcxFires c 0 z = true := by
          unfold mcxFires
          rw [Nat.xor_zero]
          exact decide_eq_true hf
        rw [if_pos hfire, ih _ hcrest]
        have hf2 : (z ^^^ 2 ^ b) &&& c = z &&& c := by
          rw [Nat.and_xor_distrib_right]
          have h0 : 2 ^ b &&& c = 0 := by
            rw [two_pow_and_eq, hcb]
            simp
          rw [h0, Nat.xor_zero]
        rw [if_pos (by rw [hf2]; exact hf), if_pos hf]
        have hxa : z ^^^ 2 ^ b ^^^ sumMask bs = z ^^^ sumMask (b :: bs) := by
          show z ^^^ 2 ^ b ^^^ sumMask bs = z ^^^ (2 ^ b ^^^ sumMask bs)
          rw [Nat.xor_assoc]
        rw [hxa]
      · have hfire : mcxFires c 0 z = false := by
          unfold mcxFires
          rw [Nat.xor_zero]
          exact decide_eq_false hf
        rw [if_neg (by rw [hfire]; exact Bool.false_ne_true), ih _ hcrest,
          if_neg hf, if_neg hf]

theorem simGates_pairGates (n : Nat) (p : Nat × Nat) (z : Nat) (ph : ℚ)
    (hdisj : p.1 &&& p.2 = 0) (hlt : p.2 < 2 ^ n) :
    simGates (pairGates n p) ⟨z, ph, none⟩ = some ⟨applyPair p z, ph, none⟩ := by
  unfold pairGates
  have hcbits : ∀ b ∈ (List.range n).filter (fun b => p.2.testBit b),
      p.1.testBit b = false := by
    intro b hb
    have hb2 : p.2.testBit b = true := (List.mem_filter.mp hb).2
    have hd := congrArg (fun m => m.testBit b) hdisj
    simp only [Nat.testBit_and, Nat.zero_testBit] at hd
    rw [hb2] at hd
    cases h1 : p.1.testBit b
    · rfl
    · rw [h1] at hd
      exact absurd hd (by simp)
  rw [simGates_flipList p.1 _ z ph hcbits, sumMask_filter_range n p.2,
    Nat.mod_eq_of_lt hlt]
  rfl

theorem simGates_reverse_flat (n : Nat) (gs : List (Nat × Nat)) (x : Nat) (ph : ℚ)
    (h : ∀ p ∈ gs, p.1 &&& p.2 = 0 ∧ p.2 < 2 ^ n) :
    simGates ((gs.reverse).flatMap (pairGates n)) ⟨x, ph, none⟩
      = some ⟨gs.foldr applyPair x, ph, none⟩ := by
  induction gs generalizing x with
  | nil => rfl
  | cons p gs ih =>
      rw [List.reverse_cons, List.flatMap_append, simGates_append,
        ih x (fun q hq => h q (List.mem_cons_of_mem p hq))]
      have hsingle : ([p] : List (Nat × Nat)).flatMap (pairGates n) = pairGates n p := by
        simp
      rw [Option.some_bind, hsingle,
        simGates_pairGates n p _ ph (h p (List.mem_cons_self p gs)).1
          (h p (List.mem_cons_self p gs)).2]
      rfl

/-- Transformation-based synthesis is correct: the netlist's action on
every basis state is the input permutation. -/
theorem tbs_action (n : Nat) (perm : List Nat) (hlen : perm.length = 2 ^ n)
    (hnd : perm.Nodup) (hbd : ∀ z ∈ perm, z < 2 ^ n) (x : Nat) (hx : x < 2 ^ n) :
    action (tbs perm) x = some (perm.getD x 0) := by
  obtain ⟨h1, h2⟩ := tbsGo_correct n perm.length 0 perm (by omega) hlen hnd hbd
    (fun j hj => absurd hj (by omega))
  have hlog : perm.length.log2 = n := by
    rw [hlen, Nat.log2_eq_log_two, Nat.log_pow (by omega)]
  unfold action simulate tbs
  rw [hlog, simGates_reverse_flat n _ x 0 h2, h1 x hx]
  rfl

/-! ## The `gray_synth` binding (src lines 50–95)

The binding's argument loop is embedded directly from the source: the
arity is taken from the first entry while `num_vars` is still `0`, and
each bitmask string is parsed into a variable mask, bit `i` set exactly
when character `i` is the digit one (the `uint32_t` mask is modelled as an
unbounded natural; the two representations agree for bitmask strings of
at most 32 characters, and the C++ shift is undefined beyond that). -/

/-- The mask-parsing loop of the binding: for each position `i` below
`term.size()` whose character is the digit one, OR `1 << i` into the mask. -/
def parseTermMask (term : List Char) : Nat :=
  (List.range term.length).foldl
    (fun acc i => if term.getD i ' ' = '1' then acc ||| (1 <<< i) else acc) 0

/-- The `num_vars` accumulation of the binding's loop: set from the
current entry's bitmask length whenever it is still zero. -/
def graySynthNumVars (terms : List (List Char × ℚ)) : Nat :=
  terms.foldl (fun nv t => if nv = 0 then t.1.length else nv) 0

/-- The parsed parity terms handed to the synthesis core. -/
def graySynthParities (terms : List (List Char × ℚ)) : List (Nat × ℚ) :=
  terms.map (fun t => (parseTermMask t.1, t.2))

/-- The bit positions of a variable mask, lowest first. -/
def termBits (nv mask : Nat) : List Nat :=
  (List.range nv).filter (fun b => mask.testBit b)

/-- The gates realizing one parity term: CNOTs accumulating the parity
onto the last involved qubit, the phase rotation, and the restoring
CNOTs. -/
def graySynthTermGates (nv : Nat) (p : Nat × ℚ) : List Gate :=
  if termBits nv p.1 = [] then []
  else
    ((termBits nv p.1).dropLast).map
        (fun b => Gate.mcx (2 ^ b) 0 ((termBits nv p.1).getLastD 0))
      ++ [Gate.parityPhase (2 ^ ((termBits nv p.1).getLastD 0)) p.2]
      ++ (((termBits nv p.1).dropLast).map
          (fun b => Gate.mcx (2 ^ b) 0 ((termBits nv p.1).getLastD 0))).reverse

/-- Modelled from the spec: `tweedledum::gray_synth` (not under `src/`;
§4.5) — allocates `num_vars` qubits and, term by term, realizes each
parity on a qubit, applies the phase rotation, and restores the linear
transformation to the identity. -/
def graySynthCore (numVars : Nat) (parities : List (Nat × ℚ)) : Netlist :=
  { numQubits := numVars,
    gates := parities.flatMap (fun p => graySynthTermGates numVars p) }

/-- The `gray_synth` binding: parse the argument tuples, then synthesize. -/
def gray_synth (terms : List (List Char × ℚ)) : Netlist :=
  graySynthCore (graySynthNumVars terms) (graySynthParities terms)

/-! ## A fuel-based evaluator for `bitParity` (used to compute concrete
parities without unfolding the well-founded recursion) -/

/-- Structural (fuel-indexed) evaluator for `bitParity`. -/
def bitParityAux : Nat → Nat → Bool
  | 0, _ => false
  | fuel + 1, m =>
      if m = 0 then false
      else (decide (m % 2 = 1)).xor (bitParityAux fuel (m / 2))

theorem bitParityAux_eq (fuel m : Nat) (h : m ≤ fuel) :
    bitParityAux fuel m = bitParity m := by
  induction fuel generalizing m with
  | zero =>
      have hm : m = 0 := by omega
      subst hm
      simp [bitParityAux, bitParity_zero]
  | succ fuel ih =>
      by_cases hm : m = 0
      · subst hm
        simp [bitParityAux, bitParity_zero]
      · have hdiv : m / 2 ≤ fuel := by
          have := Nat.div_lt_self (by omega : 0 < m) (by omega : 1 < 2)
          omega
        rw [bitParity_eq m, show bitParityAux (fuel + 1) m
            = if m = 0 then false
              else (decide (m % 2 = 1)).xor (bitParityAux fuel (m / 2)) from rfl,
          if_neg hm, ih (m / 2) hdiv]

/-- `bitParity` evaluated through the structural twin, enabling concrete
computation. -/
theorem bitParity_eval (m : Nat) : bitParity m = bitParityAux m m :=
  (bitParityAux_eq m m (le_refl m)).symm

/-! ## Further `sumMask` and `setBit` facts -/

theorem sumMask_append (a b : List Nat) :
    sumMask (a ++ b) = sumMask a ^^^ sumMask b := by
  induction a with
  | nil => simp [sumMask]
  | cons q a iha => rw [List.cons_append]; simp only [sumMask, iha, Nat.xor_assoc]

theorem sumMask_reverse (L : List Nat) : sumMask L.reverse = sumMask L := by
  induction L with
  | nil => rfl
  | cons b L ih =>
      rw [List.reverse_cons, sumMask_append, ih]
      show sumMask L ^^^ (2 ^ b ^^^ sumMask []) = 2 ^ b ^^^ sumMask L
      rw [show sumMask ([] : List Nat) = 0 from rfl, Nat.xor_zero, Nat.xor_comm]

theorem sumMask_testBit_false (L : List Nat) (t : Nat) (h : ∀ b ∈ L, b ≠ t) :
    (sumMask L).testBit t = false := by
  induction L with
  | nil => simp [sumMask]
  | cons b L ih =>
      have hbt : b ≠ t := h b (List.mem_cons_self b L)
      show (2 ^ b ^^^ sumMask L).testBit t = false
      rw [Nat.testBit_xor, ih (fun q hq => h q (List.mem_cons_of_mem b hq)),
        Nat.testBit_two_pow_of_ne hbt]
      rfl

theorem setBit_same (z t : Nat) : setBit z t (z.testBit t) = z := by
  unfold setBit
  rw [if_pos rfl]

theorem setBit_setBit (z t : Nat) (a v : Bool) :
    setBit (setBit z t a) t v = setBit z t v := by
  apply Nat.eq_of_testBit_eq
  intro j
  by_cases hj : j = t
  · subst hj
    rw [testBit_setBit_self, testBit_setBit_self]
  · rw [testBit_setBit_ne _ _ _ _ hj, testBit_setBit_ne _ _ _ _ hj,
      testBit_setBit_ne _ _ _ _ hj]

theorem setBit_and_eq (z t : Nat) (v : Bool) (m : Nat)
    (hm : m.testBit t = false) :
    setBit z t v &&& m = z &&& m := by
  apply Nat.eq_of_testBit_eq
  intro j
  rw [Nat.testBit_and, Nat.testBit_and]
  by_cases hj : j = t
  · subst hj
    rw [hm]
    simp
  · rw [testBit_setBit_ne _ _ _ _ hj]

/-! ## Simulation of a CNOT cascade onto one target -/

/-- A cascade of CNOT-style gates (each controlled by a single distinct
bit, all flipping the same target) XORs the parity of the control bits
into the target. -/
theorem cnot_cascade (L : List Nat) (t : Nat) (hL : ∀ b ∈ L, b ≠ t)
    (z : Nat) (ph : ℚ) :
    simGates (L.map (fun b => Gate.mcx (2 ^ b) 0 t)) ⟨z, ph, none⟩
      = some ⟨setBit z t ((z.testBit t).xor (bitParity (z &&& sumMask L))),
          ph, none⟩ := by
  induction L generalizing z with
  | nil =>
      simp only [List.map_nil, simGates]
      rw [show sumMask ([] : List Nat) = 0 from rfl, Nat.and_zero, bitParity_zero,
        Bool.xor_false, setBit_same]
  | cons b L ih =>
      have hbt : b ≠ t := hL b (List.mem_cons_self b L)
      have hLr : ∀ q ∈ L, q ≠ t := fun q hq => hL q (List.mem_cons_of_mem b hq)
      have hfv : mcxFires (2 ^ b) 0 z = z.testBit b := by
        unfold mcxFires
        rw [Nat.xor_zero, Nat.and_comm, two_pow_and_eq]
        cases hz : z.testBit b
        · have hne : (0 : Nat) ≠ 2 ^ b := fun hc => (Nat.two_pow_pos b).ne' hc.symm
          simp [hne]
        · simp
      have hstep : simGates ((b :: L).map (fun q => Gate.mcx (2 ^ q) 0 t))
            ⟨z, ph, none⟩
          = simGates (L.map (fun q => Gate.mcx (2 ^ q) 0 t))
              ⟨if mcxFires (2 ^ b) 0 z then z ^^^ 2 ^ t else z, ph, none⟩ := rfl
      rw [hstep, hfv]
      have hz1 : (if z.testBit b = true then z ^^^ 2 ^ t else z)
          = setBit z t ((z.testBit t).xor (z.testBit b)) := by
        cases hzb : z.testBit b
        · rw [if_neg (by exact Bool.false_ne_true), Bool.xor_false, setBit_same]
        · rw [if_pos rfl]
          unfold setBit
          rw [if_neg (by cases hzt : z.testBit t <;> simp [hzt])]
      rw [hz1, ih hLr]
      have hA : (setBit z t ((z.testBit t).xor (z.testBit b))).testBit t
          = (z.testBit t).xor (z.testBit b) := testBit_setBit_self _ _ _
      have hB : setBit z t ((z.testBit t).xor (z.testBit b)) &&& sumMask L
          = z &&& sumMask L :=
        setBit_and_eq z t _ (sumMask L) (sumMask_testBit_false L t hLr)
      rw [hA, hB, setBit_setBit]
      have hC : bitParity (z &&& sumMask (b :: L))
          = (z.testBit b).xor (bitParity (z &&& sumMask L)) := by
        show bitParity (z &&& (2 ^ b ^^^ sumMask L)) = _
        rw [Nat.and_xor_distrib_left, bitParity_xor, Nat.and_comm,
          bitParity_two_pow_and]
      rw [hC, Bool.xor_assoc]

theorem termBits_nodup (nv mask : Nat) : (termBits nv mask).Nodup :=
  (List.nodup_range nv).filter _

theorem sumMask_termBits (nv mask : Nat) :
    sumMask (termBits nv mask) = mask % 2 ^ nv :=
  sumMask_filter_range nv mask

theorem termBits_getLastD (nv mask : Nat) (h : termBits nv mask ≠ []) :
    termBits nv mask
      = (termBits nv mask).dropLast ++ [(termBits nv mask).getLastD 0] := by
  rw [List.getLastD_eq_getLast?, List.getLast?_eq_getLast _ h, Option.getD_some]
  exact (List.dropLast_concat_getLast h).symm

theorem simStep_parityPhase (m : Nat) (th : ℚ) (z : Nat) (ph : ℚ) :
    simStep (Gate.parityPhase m th) ⟨z, ph, none⟩
      = some ⟨z, ph + phaseOf m z th, none⟩ := rfl

theorem bitParity_and_two_pow (z t : Nat) :
    bitParity (z &&& 2 ^ t) = z.testBit t := by
  rw [Nat.and_comm]
  exact bitParity_two_pow_and t z

/-- A parity term's gate block (CNOT cascade, phase, restoring cascade)
leaves the basis state unchanged and adds the parity-conditioned phase. -/
theorem cascade_phase_cascade (L : List Nat) (t : Nat) (h : ∀ b ∈ L, b ≠ t)
    (th : ℚ) (x : Nat) (ph : ℚ) :
    simGates ((L.map (fun b => Gate.mcx (2 ^ b) 0 t))
        ++ [Gate.parityPhase (2 ^ t) th]
        ++ (L.map (fun b => Gate.mcx (2 ^ b) 0 t)).reverse) ⟨x, ph, none⟩
      = some ⟨x, ph + phaseOf (sumMask (L ++ [t])) x th, none⟩ := by
  have hsum : sumMask (L ++ [t]) = sumMask L ^^^ 2 ^ t := by
    rw [sumMask_append, show sumMask [t] = 2 ^ t ^^^ 0 from rfl, Nat.xor_zero]
  rw [simGates_append, simGates_append, cnot_cascade L t h x ph, Option.some_bind,
    simGates_single, simStep_parityPhase, Option.some_bind, List.reverse_map,
    cnot_cascade _ _ (fun b hb => h b (List.mem_reverse.mp hb)), sumMask_reverse]
  have ht1 : (setBit x t ((x.testBit t).xor (bitParity (x &&& sumMask L)))).testBit t
      = (x.testBit t).xor (bitParity (x &&& sumMask L)) := testBit_setBit_self _ _ _
  have ht2 : setBit x t ((x.testBit t).xor (bitParity (x &&& sumMask L))) &&& sumMask L
      = x &&& sumMask L :=
    setBit_and_eq _ _ _ _ (sumMask_testBit_false L t h)
  rw [ht1, ht2, setBit_setBit, Bool.xor_assoc, Bool.xor_self, Bool.xor_false,
    setBit_same]
  have hph : phaseOf (2 ^ t)
        (setBit x t ((x.testBit t).xor (bitParity (x &&& sumMask L)))) th
      = phaseOf (sumMask (L ++ [t])) x th := by
    unfold phaseOf
    rw [bitParity_and_two_pow, testBit_setBit_self, hsum, Nat.and_xor_distrib_left,
      bitParity_xor, bitParity_and_two_pow, Bool.xor_comm]
  rw [hph]

/-- Simulation of one parity term of the synthesized netlist: the state is
restored and the phase of the (truncated) parity mask is added. -/
theorem graySynthTermGates_sim (nv : Nat) (p : Nat × ℚ) (x : Nat) (ph : ℚ) :
    simGates (graySynthTermGates nv p) ⟨x, ph, none⟩
      = some ⟨x, ph + phaseOf (p.1 % 2 ^ nv) x p.2, none⟩ := by
  unfold graySynthTermGates
  by_cases hbs : termBits nv p.1 = []
  · rw [if_pos hbs]
    have hm : p.1 % 2 ^ nv = 0 := by
      rw [← sumMask_termBits nv p.1, hbs]
      rfl
    rw [hm]
    simp only [simGates]
    unfold phaseOf
    rw [Nat.and_zero, bitParity_zero, if_neg Bool.false_ne_true, add_zero]
  · rw [if_neg hbs]
    have hnd : (termBits nv p.1).Nodup := termBits_nodup nv p.1
    have hsplit := termBits_getLastD nv p.1 hbs
    have hLne : ∀ b ∈ (termBits nv p.1).dropLast,
        b ≠ (termBits nv p.1).getLastD 0 := by
      intro b hb heq
      have hnd2 := hnd
      rw [hsplit] at hnd2
      obtain ⟨h1, h2, hdisj⟩ := List.nodup_append.mp hnd2
      exact hdisj hb (by rw [heq]; exact List.mem_singleton_self _)
    rw [cascade_phase_cascade _ _ hLne p.2 x ph]
    have hs2 : sumMask ((termBits nv p.1).dropLast
          ++ [(termBits nv p.1).getLastD 0]) = p.1 % 2 ^ nv := by
      rw [← hsplit, sumMask_termBits]
    rw [hs2]

/-- Simulation of the whole parity-term gate list: the basis state is
unchanged and the per-term phases accumulate. -/
theorem graySynthGates_sim (nv : Nat) (ps : List (Nat × ℚ)) (x : Nat) (ph : ℚ) :
    simGates (ps.flatMap (fun p => graySynthTermGates nv p)) ⟨x, ph, none⟩
      = some ⟨x, ph + (ps.map (fun p => phaseOf (p.1 % 2 ^ nv) x p.2)).sum,
          none⟩ := by
  induction ps generalizing ph with
  | nil => simp [simGates]
  | cons p ps ih =>
      rw [List.flatMap_cons, simGates_append, graySynthTermGates_sim,
        Option.some_bind, ih, List.map_cons, List.sum_cons, add_assoc]

/-- The synthesized netlist is diagonal: every basis state is mapped to
itself, with the phase summed over the parity terms it satisfies. -/
theorem graySynthCore_simulate (nv : Nat) (ps : List (Nat × ℚ)) (x : Nat) :
    simulate (graySynthCore nv ps) x
      = some (x, (ps.map (fun p => phaseOf (p.1 % 2 ^ nv) x p.2)).sum) := by
  unfold simulate
  have hg : simGates (graySynthCore nv ps).gates ⟨x, 0, none⟩
      = some ⟨x, 0 + (ps.map (fun p => phaseOf (p.1 % 2 ^ nv) x p.2)).sum, none⟩ :=
    graySynthGates_sim nv ps x 0
  rw [hg, zero_add]

theorem gray_synth_simulate (terms : List (List Char × ℚ)) (x : Nat) :
    simulate (gray_synth terms) x
      = some (x, ((graySynthParities terms).map
          (fun p => phaseOf (p.1 % 2 ^ graySynthNumVars terms) x p.2)).sum) :=
  graySynthCore_simulate _ _ x

/-! ## The bitmask-parsing and arity conventions of `gray_synth` -/

/-- Bit `j` of the parsed mask is set exactly when position `j` exists in
the bitmask string and carries the digit one. -/
theorem parseTermMask_testBit (term : List Char) (j : Nat) :
    (parseTermMask term).testBit j
      = (decide (j < term.length) && decide (term.getD j ' ' = '1')) := by
  suffices h : ∀ n acc, (((List.range n).foldl
      (fun acc i => if term.getD i ' ' = '1' then acc ||| (1 <<< i) else acc)
        acc).testBit j)
      = (acc.testBit j || (decide (j < n) && decide (term.getD j ' ' = '1'))) by
    have h0 := h term.length 0
    unfold parseTermMask
    rw [h0, Nat.zero_testBit, Bool.false_or]
  intro n
  induction n with
  | zero =>
      intro acc
      simp
  | succ n ih =>
      intro acc
      have hfold : ∀ (X : Nat), (List.foldl
          (fun acc i => if term.getD i ' ' = '1' then acc ||| (1 <<< i) else acc)
            X [n])
          = if term.getD n ' ' = '1' then X ||| (1 <<< n) else X := fun X => rfl
      rw [List.range_succ, List.foldl_append, hfold]
      by_cases hc : term.getD n ' ' = '1'
      · rw [if_pos hc, Nat.testBit_or, ih acc, Nat.one_shiftLeft,
          Nat.testBit_two_pow]
        by_cases hj : j = n
        · subst hj
          rw [decide_eq_true (rfl : j = j), Bool.or_true, decide_eq_true hc,
            Bool.and_true, decide_eq_true (Nat.lt_succ_self j), Bool.or_true]
        · have hd : (decide (n = j)) = false := by
            simp only [decide_eq_false_iff_not]
            exact fun hc2 => hj hc2.symm
          have hd2 : decide (j < n + 1) = decide (j < n) := by
            rcases Nat.lt_trichotomy j n with h | h | h
            · simp [h, Nat.lt_succ_of_lt h]
            · exact absurd h hj
            · have h1 : ¬j < n := by omega
              have h2 : ¬j < n + 1 := by omega
              simp [h1, h2]
          rw [hd, hd2, Bool.or_false]
      · rw [if_neg hc, ih acc]
        have hcd : decide (term.getD n ' ' = '1') = false := by
          simp only [decide_eq_false_iff_not]
          exact hc
        by_cases hj : j = n
        · subst hj
          rw [hcd]
          simp [Nat.lt_irrefl]
        · have hd2 : decide (j < n + 1) = decide (j < n) := by
            rcases Nat.lt_trichotomy j n with h | h | h
            · simp [h, Nat.lt_succ_of_lt h]
            · exact absurd h hj
            · have h1 : ¬j < n := by omega
              have h2 : ¬j < n + 1 := by omega
              simp [h1, h2]
          rw [hd2]

theorem graySynthNumVars_stable (terms : List (List Char × ℚ)) (nv : Nat)
    (h : nv ≠ 0) :
    terms.foldl (fun nv t => if nv = 0 then t.1.length else nv) nv = nv := by
  induction terms with
  | nil => rfl
  | cons t terms ih =>
      simp only [List.foldl_cons]
      rw [if_neg h]
      exact ih

/-- The arity accumulator: the head decides unless its bitmask is empty,
in which case the scan continues with the tail. -/
theorem graySynthNumVars_cons (t : List Char × ℚ)
    (terms : List (List Char × ℚ)) :
    graySynthNumVars (t :: terms)
      = if t.1.length = 0 then graySynthNumVars terms else t.1.length := by
  unfold graySynthNumVars
  simp only [List.foldl_cons, if_true]
  by_cases h : t.1.length = 0
  · rw [if_pos h, h]
  · rw [if_neg h, graySynthNumVars_stable terms _ h]

/-! ## The `diagonal_synth` binding (src lines 147–160)

The binding hands the angle vector straight to
`tweedledum::diagonal_synth`, which is not part of this repository's
sources and is modelled from the specification (§4.5, §7): the vector
must hold `2^n − 1` angles `θ_1, …, θ_{2^n−1}` for the diagonal unitary
`diag(1, e^{−iθ_1}, …, e^{−iθ_{2^n−1}})`; a vector whose length is not
of that form is rejected before any gate is emitted. -/

/-- Modelled from the spec: `diagonal_synth` — reject unless the length
is `2^n − 1`, otherwise emit one diagonal phase per nonzero basis index
(the sign convention of the docstring: angle `θ_k` applies `e^{−iθ_k}`). -/
def diagonal_synth (angles : List ℚ) : Option Netlist :=
  if 2 ^ (angles.length + 1).log2 = angles.length + 1 then
    some { numQubits := (angles.length + 1).log2,
           gates := (List.range angles.length).map
             (fun k => Gate.diagPhase (k + 1) (-(angles.getD k 0))) }
  else none

theorem simGates_diagMap (ks : List Nat) (f : Nat → ℚ) (x : Nat) (ph : ℚ) :
    simGates (ks.map (fun k => Gate.diagPhase (k + 1) (f k))) ⟨x, ph, none⟩
      = some ⟨x, ph + (ks.map (fun k => if x = k + 1 then f k else 0)).sum,
          none⟩ := by
  induction ks generalizing ph with
  | nil => simp [simGates]
  | cons k ks ih =>
      show (simStep (Gate.diagPhase (k + 1) (f k)) ⟨x, ph, none⟩).bind _ = _
      rw [show simStep (Gate.diagPhase (k + 1) (f k)) ⟨x, ph, none⟩
          = some ⟨x, ph + (if x = k + 1 then f k else 0), none⟩ from rfl,
        Option.some_bind, ih, List.map_cons, List.sum_cons, add_assoc]

/-- On a well-formed length the model emits the diagonal: each basis
state is fixed and picks up its own angle (negated, per the docstring's
`e^{−iθ}` convention). -/
theorem simulate_of_simGates (nl : Netlist) (x y : Nat) (ph : ℚ)
    (h : simGates nl.gates ⟨x, 0, none⟩ = some ⟨y, ph, none⟩) :
    simulate nl x = some (y, ph) := by
  unfold simulate
  rw [h]

theorem diagonal_synth_simulate (angles : List ℚ)
    (h : 2 ^ (angles.length + 1).log2 = angles.length + 1) (x : Nat) :
    (diagonal_synth angles).map (fun nl => simulate nl x)
      = some (some (x, ((List.range angles.length).map
          (fun k => if x = k + 1 then -(angles.getD k 0) else 0)).sum)) := by
  unfold diagonal_synth
  rw [if_pos h]
  show some _ = _
  congr 1
  refine simulate_of_simGates _ x x _ ?_
  show simGates ((List.range angles.length).map
      (fun k => Gate.diagPhase (k + 1) (-(angles.getD k 0)))) ⟨x, 0, none⟩ = _
  rw [simGates_diagMap (List.range angles.length)
    (fun k => -(angles.getD k 0)) x 0, zero_add]

/-- A length that is not `2^n − 1` for any `n` is rejected with no
netlist. -/
theorem diagonal_synth_reject (angles : List ℚ)
    (h : ∀ n : Nat, angles.length ≠ 2 ^ n - 1) :
    diagonal_synth angles = none := by
  unfold diagonal_synth
  rw [if_neg]
  intro hc
  exact h ((angles.length + 1).log2) (by omega)

/-! ## Decomposition-based synthesis (the `dbs` binding, src lines 162–183)

`tweedledum::dbs` is not part of this repository's sources; the
decomposition-based synthesis it implements is modelled from the
specification (§4.4): the permutation is recursively decomposed, one
variable per level, into a pair of single-target oracle steps (a right
and a left gate on that variable) around a residual permutation that
fixes the variable; each single-target step is realized via the STG
embedder with the chosen kind, and the recursion is terminal once every
variable has been processed.  The binding performs no validation of the
permutation (§9: the original binding trusted the caller). -/

/-- The control qubits of the single-target step on variable `v`: every
qubit except `v`, in increasing order. -/
def othersList (n v : Nat) : List Nat :=
  (List.range n).filter (fun q => q ≠ v)

theorem othersList_nodup (n v : Nat) : (othersList n v).Nodup :=
  (List.nodup_range n).filter _

theorem mem_othersList (n v q : Nat) :
    q ∈ othersList n v ↔ q < n ∧ q ≠ v := by
  unfold othersList
  rw [List.mem_filter, List.mem_range]
  simp

theorem not_mem_othersList (n v : Nat) : v ∉ othersList n v := by
  rw [mem_othersList]
  exact fun hc => hc.2 rfl

theorem othersList_length (n v : Nat) (hv : v < n) :
    (othersList n v).length + 1 = n := by
  induction n with
  | zero => omega
  | succ n ih =>
      unfold othersList at *
      rw [List.range_succ, List.filter_append, List.length_append]
      by_cases hvn : v = n
      · subst hvn
        have h1 : List.filter (fun q => decide (q ≠ v)) [v] = [] := by simp
        have h2 : List.filter (fun q => decide (q ≠ v)) (List.range v)
            = List.range v := by
          rw [List.filter_eq_self]
          intro a ha
          rw [List.mem_range] at ha
          simp
          omega
        rw [h1, h2, List.length_range]
        simp
      · have hvlt : v < n := by omega
        have hnv : n ≠ v := fun hc => hvn hc.symm
        have h1 : List.filter (fun q => decide (q ≠ v)) [n] = [n] := by
          simp [hnv]
        rw [h1]
        have h2 := ih hvlt
        simp only [List.length_singleton]
        omega

/-- The pair index of a basis state relative to variable `v`: its bits
with bit `v` deleted. -/
def kOf (n v x : Nat) : Nat := extractBits x (othersList n v)

/-- Rebuild a basis state from a pair index and the value of bit `v`. -/
def joinV (n v k : Nat) (b : Bool) : Nat :=
  spreadBits k (othersList n v) ||| (if b then 2 ^ v else 0)

theorem joinV_testBit_v (n v k : Nat) (b : Bool) :
    (joinV n v k b).testBit v = b := by
  unfold joinV
  rw [Nat.testBit_or, spreadBits_testBit_not_mem _ _ _ (not_mem_othersList n v),
    Bool.false_or]
  cases b
  · simp
  · simp [Nat.testBit_two_pow_self]

theorem joinV_testBit_other (n v k j : Nat) (b : Bool) (hj : j ≠ v) :
    (joinV n v k b).testBit j = (spreadBits k (othersList n v)).testBit j := by
  unfold joinV
  rw [Nat.testBit_or]
  cases b
  · simp
  · rw [if_pos rfl, Nat.testBit_two_pow_of_ne (fun hc => hj hc.symm)]
    simp

theorem kOf_lt (n v x : Nat) : kOf n v x < 2 ^ (othersList n v).length :=
  extractBits_lt x (othersList n v)

theorem kOf_joinV (n v k : Nat) (b : Bool)
    (hk : k < 2 ^ (othersList n v).length) :
    kOf n v (joinV n v k b) = k := by
  apply Nat.eq_of_testBit_eq
  intro i
  unfold kOf
  by_cases hi : i < (othersList n v).length
  · rw [extractBits_testBit _ _ i hi]
    have hget : (othersList n v).get ⟨i, hi⟩ ≠ v :=
      ((mem_othersList n v _).mp (List.get_mem (othersList n v) i hi)).2
    rw [joinV_testBit_other _ _ _ _ _ hget,
      spreadBits_testBit_get k (othersList n v) (othersList_nodup n v) i hi]
  · have h1 : (extractBits (joinV n v k b) (othersList n v)).testBit i = false :=
      Nat.testBit_lt_two_pow (lt_of_lt_of_le (extractBits_lt _ _)
        (Nat.pow_le_pow_right (by omega) (by omega)))
    have h2 : k.testBit i = false :=
      Nat.testBit_lt_two_pow (lt_of_lt_of_le hk
        (Nat.pow_le_pow_right (by omega) (by omega)))
    rw [h1, h2]

theorem joinV_kOf (n v x : Nat) (hx : x < 2 ^ n) :
    joinV n v (kOf n v x) (x.testBit v) = x := by
  apply Nat.eq_of_testBit_eq
  intro j
  by_cases hjv : j = v
  · subst hjv
    rw [joinV_testBit_v]
  · rw [joinV_testBit_other _ _ _ _ _ hjv]
    by_cases hjn : j < n
    · have hmem : j ∈ othersList n v := (mem_othersList n v j).mpr ⟨hjn, hjv⟩
      obtain ⟨i, hji⟩ := List.get_of_mem hmem
      obtain ⟨iv, hiv⟩ := i
      subst hji
      rw [spreadBits_testBit_get _ _ (othersList_nodup n v) iv hiv]
      unfold kOf
      rw [extractBits_testBit _ _ iv hiv]
    · have h1 : x.testBit j = false :=
        Nat.testBit_lt_two_pow (lt_of_lt_of_le hx
          (Nat.pow_le_pow_right (by omega) (by omega)))
      have h2 : (spreadBits (kOf n v x) (othersList n v)).testBit j = false := by
        apply spreadBits_testBit_not_mem
        intro hmem
        exact hjn ((mem_othersList n v j).mp hmem).1
      rw [h1, h2]

theorem joinV_lt (n v k : Nat) (b : Bool) (hv : v < n)
    (hk : k < 2 ^ (othersList n v).length) :
    joinV n v k b < 2 ^ n := by
  apply Nat.lt_pow_two_of_testBit
  intro i hi
  by_cases hiv : i = v
  · subst hiv
    omega
  · rw [joinV_testBit_other _ _ _ _ _ hiv]
    apply spreadBits_testBit_not_mem
    intro hmem
    have := ((mem_othersList n v i).mp hmem).1
    omega

theorem joinV_inj (n v : Nat) (k k2 : Nat) (b b2 : Bool)
    (hk : k < 2 ^ (othersList n v).length)
    (hk2 : k2 < 2 ^ (othersList n v).length)
    (h : joinV n v k b = joinV n v k2 b2) : k = k2 ∧ b = b2 := by
  constructor
  · rw [← kOf_joinV n v k b hk, h, kOf_joinV n v k2 b2 hk2]
  · rw [← joinV_testBit_v n v k b, h, joinV_testBit_v]

theorem kOf_xor_two_pow (n v x : Nat) : kOf n v (x ^^^ 2 ^ v) = kOf n v x := by
  unfold kOf
  have hcong : ∀ (qs : List Nat), (∀ q ∈ qs, q ≠ v) →
      extractBits (x ^^^ 2 ^ v) qs = extractBits x qs := by
    intro qs
    induction qs with
    | nil => intro _; rfl
    | cons q t ih =>
        intro hq
        unfold extractBits
        rw [ih (fun r hr => hq r (List.mem_cons_of_mem q hr)), Nat.testBit_xor,
          Nat.testBit_two_pow_of_ne
            (fun hc => hq q (List.mem_cons_self q t) hc.symm), Bool.xor_false]
  exact hcong _ (fun q hq => ((mem_othersList n v q).mp hq).2)

/-- The codomain pair indices of the images of the chosen pair elements,
given the choice bit vector `c` (bit `k` tells whether pair `k`
contributes its bit-`v`-set element). -/
def dbsImgs (n v : Nat) (f : Nat → Nat) (c : Nat) : List Nat :=
  (List.range (2 ^ (othersList n v).length)).map
    (fun k => kOf n v (f (joinV n v k (c.testBit k))))

/-- A choice vector is valid when the chosen images land in pairwise
distinct codomain pairs (a system of distinct representatives). -/
def dbsValid (n v : Nat) (f : Nat → Nat) (c : Nat) : Bool :=
  decide (dbsImgs n v f c).Nodup

/-- The first valid choice vector (exhaustive search; a valid one exists
for every bijection by Hall's theorem). -/
def dbsChoice (n v : Nat) (f : Nat → Nat) : Nat :=
  ((List.range (2 ^ 2 ^ (othersList n v).length)).find?
    (fun c => dbsValid n v f c)).getD 0

/-- The Boolean single-target function of the right gate on variable `v`:
flip pair `k` exactly when the choice selected its flipped element. -/
def dbsR (n v : Nat) (f : Nat → Nat) (k : Nat) : Bool :=
  (dbsChoice n v f).testBit k

/-- The action of the right gate on a basis state. -/
def dbsRFn (n v : Nat) (f : Nat → Nat) (x : Nat) : Nat :=
  if dbsR n v f (kOf n v x) then x ^^^ 2 ^ v else x

/-- The Boolean single-target function of the left gate on variable `v`:
flip codomain pair `q` exactly when the chosen image inside it carries
bit `v`. -/
def dbsL (n v : Nat) (f : Nat → Nat) (q : Nat) : Bool :=
  match (List.range (2 ^ (othersList n v).length)).find?
      (fun k => kOf n v (f (joinV n v k (dbsR n v f k))) = q) with
  | some k => (f (joinV n v k (dbsR n v f k))).testBit v
  | none => false

/-- The action of the left gate on a basis state. -/
def dbsLFn (n v : Nat) (f : Nat → Nat) (x : Nat) : Nat :=
  if dbsL n v f (kOf n v x) then x ^^^ 2 ^ v else x

/-- The residual permutation after the step on variable `v`. -/
def dbsStepPerm (n v : Nat) (f : Nat → Nat) (x : Nat) : Nat :=
  dbsLFn n v f (f (dbsRFn n v f x))

/-- Every predicate on an initial segment of bit positions is the bit
pattern of some natural number. -/
theorem exists_nat_testBit (m : Nat) : ∀ p : Nat → Bool,
    ∃ c, c < 2 ^ m ∧ ∀ k, k < m → c.testBit k = p k := by
  induction m with
  | zero =>
      intro p
      exact ⟨0, Nat.two_pow_pos 0, fun k hk => absurd hk (by omega)⟩
  | succ m ih =>
      intro p
      obtain ⟨c, hc, hbits⟩ := ih (fun k => p (k + 1))
      have h2 : (2 : Nat) ^ (m + 1) = 2 * 2 ^ m := by ring
      refine ⟨2 * c + (if p 0 then 1 else 0), ?_, ?_⟩
      · by_cases h0 : p 0
        · rw [if_pos h0]
          omega
        · rw [if_neg h0]
          omega
      · intro k hk
        cases k with
        | zero =>
            rw [Nat.testBit_zero]
            by_cases h0 : p 0
            · rw [if_pos h0, h0]
              have hm1 : (2 * c + 1) % 2 = 1 := by omega
              rw [hm1]
              rfl
            · rw [if_neg h0, Nat.add_zero]
              have hp : p 0 = false := by
                cases hp0 : p 0
                · rfl
                · exact absurd hp0 h0
              have hm0 : (2 * c) % 2 = 0 := by omega
              rw [hp, hm0]
              rfl
        | succ k =>
            rw [Nat.testBit_add_one]
            have hdiv : (2 * c + (if p 0 then 1 else 0)) / 2 = c := by
              by_cases h0 : p 0
              · rw [if_pos h0]
                omega
              · rw [if_neg h0]
                omega
            rw [hdiv]
            exact hbits k (by omega)

/-- A duplicate-free list of `N` naturals all below `N` contains every
natural below `N`. -/
theorem nodup_bound_mem (l : List Nat) (N : Nat) (hlen : l.length = N)
    (hnd : l.Nodup) (hbd : ∀ z ∈ l, z < N) (q : Nat) (hq : q < N) : q ∈ l := by
  have hsub : l.toFinset ⊆ Finset.range N := by
    intro a ha
    rw [Finset.mem_range]
    exact hbd a (List.mem_toFinset.mp ha)
  have hcard : l.toFinset.card = N := by
    rw [List.toFinset_card_of_nodup hnd, hlen]
  have heq : l.toFinset = Finset.range N :=
    Finset.eq_of_subset_of_card_le hsub (by rw [hcard, Finset.card_range])
  rw [← List.mem_toFinset, heq, Finset.mem_range]
  exact hq

/-- Hall's condition holds for the pair graph of a bijection, so a valid
choice vector exists: the decomposition step can always pick a system of
distinct representatives. -/
theorem dbs_exists_valid (n v : Nat) (f : Nat → Nat) (hv : v < n)
    (hmap : ∀ x, x < 2 ^ n → f x < 2 ^ n)
    (hinj : ∀ x, x < 2 ^ n → ∀ y, y < 2 ^ n → f x = f y → x = y) :
    ∃ c, c < 2 ^ 2 ^ (othersList n v).length ∧ dbsValid n v f c = true := by
  have hall : ∀ s : Finset (Fin (2 ^ (othersList n v).length)),
      s.card ≤ (s.biUnion (fun k => ({kOf n v (f (joinV n v (k : Nat) false)),
        kOf n v (f (joinV n v (k : Nat) true))} : Finset Nat))).card := by
    intro s
    have hkey : s.card * 2 ≤ (s.biUnion (fun k =>
        ({kOf n v (f (joinV n v (k : Nat) false)),
          kOf n v (f (joinV n v (k : Nat) true))} : Finset Nat))).card * 2 := by
      have h1 : (s ×ˢ (Finset.univ : Finset Bool)).card = s.card * 2 := by
        rw [Finset.card_product, Finset.card_univ, Fintype.card_bool]
      have h2 : ((s.biUnion (fun k => ({kOf n v (f (joinV n v (k : Nat) false)),
            kOf n v (f (joinV n v (k : Nat) true))} : Finset Nat)))
            ×ˢ (Finset.univ : Finset Bool)).card
          = (s.biUnion (fun k => ({kOf n v (f (joinV n v (k : Nat) false)),
            kOf n v (f (joinV n v (k : Nat) true))} : Finset Nat))).card * 2 := by
        rw [Finset.card_product, Finset.card_univ, Fintype.card_bool]
      rw [← h1, ← h2]
      apply Finset.card_le_card_of_injOn (fun kb =>
        (kOf n v (f (joinV n v (kb.1 : Nat) kb.2)),
          (f (joinV n v (kb.1 : Nat) kb.2)).testBit v))
      · intro kb hkb
        rw [Finset.mem_product]
        refine ⟨?_, Finset.mem_univ _⟩
        rw [Finset.mem_biUnion]
        refine ⟨kb.1, (Finset.mem_product.mp hkb).1, ?_⟩
        cases hb : kb.2
        · exact Finset.mem_insert_self _ _
        · exact Finset.mem_insert_of_mem (Finset.mem_singleton_self _)
      · intro kb hkb kb2 hkb2 heq
        simp only [Prod.mk.injEq] at heq
        obtain ⟨hq, hbit⟩ := heq
        have hk1lt : (kb.1 : Nat) < 2 ^ (othersList n v).length := kb.1.isLt
        have hk2lt : (kb2.1 : Nat) < 2 ^ (othersList n v).length := kb2.1.isLt
        have hx1 : joinV n v (kb.1 : Nat) kb.2 < 2 ^ n :=
          joinV_lt n v _ _ hv hk1lt
        have hx2 : joinV n v (kb2.1 : Nat) kb2.2 < 2 ^ n :=
          joinV_lt n v _ _ hv hk2lt
        have hz1 : f (joinV n v (kb.1 : Nat) kb.2) < 2 ^ n := hmap _ hx1
        have hz2 : f (joinV n v (kb2.1 : Nat) kb2.2) < 2 ^ n := hmap _ hx2
        have hzz : f (joinV n v (kb.1 : Nat) kb.2)
            = f (joinV n v (kb2.1 : Nat) kb2.2) := by
          rw [← joinV_kOf n v (f (joinV n v (kb.1 : Nat) kb.2)) hz1,
            ← joinV_kOf n v (f (joinV n v (kb2.1 : Nat) kb2.2)) hz2]
          rw [hq, hbit]
        have hxx := hinj _ hx1 _ hx2 hzz
        obtain ⟨hk, hb2⟩ := joinV_inj n v _ _ _ _ hk1lt hk2lt hxx
        exact Prod.ext (Fin.ext hk) hb2
    omega
  obtain ⟨g, hginj, hgmem⟩ :=
    (Finset.all_card_le_biUnion_card_iff_exists_injective _).mp hall
  obtain ⟨c, hclt, hcbits⟩ := exists_nat_testBit (2 ^ (othersList n v).length)
    (fun k => if hk : k < 2 ^ (othersList n v).length then
      decide (g ⟨k, hk⟩ ≠ kOf n v (f (joinV n v k false))) else false)
  refine ⟨c, hclt, ?_⟩
  unfold dbsValid
  apply decide_eq_true
  unfold dbsImgs
  have hentry : ∀ k (hk : k < 2 ^ (othersList n v).length),
      kOf n v (f (joinV n v k (c.testBit k))) = g ⟨k, hk⟩ := by
    intro k hk
    rw [hcbits k hk]
    by_cases hgk : g ⟨k, hk⟩ = kOf n v (f (joinV n v k false))
    · rw [dif_pos hk]
      have hdf : (decide (g ⟨k, hk⟩ ≠ kOf n v (f (joinV n v k false)))) = false := by
        simp [hgk]
      rw [hdf]
      exact hgk.symm
    · have hdt : (decide (g ⟨k, hk⟩ ≠ kOf n v (f (joinV n v k false)))) = true := by
        simp [hgk]
      rw [dif_pos hk, hdt]
      have hmem := hgmem ⟨k, hk⟩
      rcases Finset.mem_insert.mp hmem with h | h
      · exact absurd h hgk
      · exact (Finset.mem_singleton.mp h).symm
  apply List.Nodup.map_on ?_ (List.nodup_range _)
  intro a ha b hb heq
  rw [List.mem_range] at ha hb
  rw [hentry a ha, hentry b hb] at heq
  exact congrArg Fin.val (hginj heq)

theorem dbsChoice_valid (n v : Nat) (f : Nat → Nat) (hv : v < n)
    (hmap : ∀ x, x < 2 ^ n → f x < 2 ^ n)
    (hinj : ∀ x, x < 2 ^ n → ∀ y, y < 2 ^ n → f x = f y → x = y) :
    dbsValid n v f (dbsChoice n v f) = true := by
  obtain ⟨c0, hc0lt, hc0v⟩ := dbs_exists_valid n v f hv hmap hinj
  have hsome : ((List.range (2 ^ 2 ^ (othersList n v).length)).find?
      (fun c => dbsValid n v f c)).isSome := by
    rw [List.find?_isSome]
    exact ⟨c0, List.mem_range.mpr hc0lt, hc0v⟩
  obtain ⟨c, hc⟩ := Option.isSome_iff_exists.mp hsome
  unfold dbsChoice
  rw [hc, Option.getD_some]
  exact List.find?_some hc

theorem flip_cond_testBit_ne (b : Bool) (v x j : Nat) (hj : j ≠ v) :
    (if b = true then x ^^^ 2 ^ v else x).testBit j = x.testBit j := by
  cases b
  · rw [if_neg Bool.false_ne_true]
  · rw [if_pos rfl, Nat.testBit_xor,
      Nat.testBit_two_pow_of_ne (fun hc => hj hc.symm), Bool.xor_false]

theorem flip_cond_lt (b : Bool) (n v x : Nat) (hv : v < n) (hx : x < 2 ^ n) :
    (if b = true then x ^^^ 2 ^ v else x) < 2 ^ n := by
  cases b
  · rw [if_neg Bool.false_ne_true]
    exact hx
  · rw [if_pos rfl]
    exact Nat.xor_lt_two_pow hx (Nat.pow_lt_pow_right (by omega) hv)

theorem dbsRFn_invol (n v : Nat) (f : Nat → Nat) (x : Nat) :
    dbsRFn n v f (dbsRFn n v f x) = x := by
  unfold dbsRFn
  by_cases h : dbsR n v f (kOf n v x) = true
  · rw [if_pos h, kOf_xor_two_pow, if_pos h, Nat.xor_assoc, Nat.xor_self,
      Nat.xor_zero]
  · rw [if_neg h, if_neg h]

theorem dbsLFn_invol (n v : Nat) (f : Nat → Nat) (x : Nat) :
    dbsLFn n v f (dbsLFn n v f x) = x := by
  unfold dbsLFn
  by_cases h : dbsL n v f (kOf n v x) = true
  · rw [if_pos h, kOf_xor_two_pow, if_pos h, Nat.xor_assoc, Nat.xor_self,
      Nat.xor_zero]
  · rw [if_neg h, if_neg h]

/-- The left gate's lookup always succeeds on a valid choice: every
codomain pair holds exactly one chosen image. -/
theorem dbsL_spec (n v : Nat) (f : Nat → Nat) (hv : v < n)
    (hmap : ∀ x, x < 2 ^ n → f x < 2 ^ n)
    (hinj : ∀ x, x < 2 ^ n → ∀ y, y < 2 ^ n → f x = f y → x = y)
    (q : Nat) (hq : q < 2 ^ (othersList n v).length) :
    ∃ k, k < 2 ^ (othersList n v).length ∧
      kOf n v (f (joinV n v k (dbsR n v f k))) = q ∧
      dbsL n v f q = (f (joinV n v k (dbsR n v f k))).testBit v := by
  have hvalid := dbsChoice_valid n v f hv hmap hinj
  have hmem : q ∈ dbsImgs n v f (dbsChoice n v f) := by
    apply nodup_bound_mem _ _ ?hlen (of_decide_eq_true hvalid) ?hbd q hq
    case hlen =>
      unfold dbsImgs
      rw [List.length_map, List.length_range]
    case hbd =>
      intro z hz
      unfold dbsImgs at hz
      obtain ⟨k, hk, hkz⟩ := List.mem_map.mp hz
      rw [← hkz]
      exact kOf_lt n v _
  obtain ⟨k0, hfind⟩ : ∃ k0, (List.range (2 ^ (othersList n v).length)).find?
      (fun k => kOf n v (f (joinV n v k (dbsR n v f k))) = q) = some k0 := by
    apply Option.isSome_iff_exists.mp
    rw [List.find?_isSome]
    unfold dbsImgs at hmem
    obtain ⟨k, hk, hkq⟩ := List.mem_map.mp hmem
    exact ⟨k, hk, decide_eq_true hkq⟩
  have hk0 := List.find?_some hfind
  have hk0mem := List.mem_of_find?_eq_some hfind
  rw [List.mem_range] at hk0mem
  refine ⟨k0, hk0mem, of_decide_eq_true hk0, ?_⟩
  unfold dbsL
  rw [hfind]

/-- The decisive property of the decomposition step: the residual
permutation fixes bit `v` of every basis state. -/
theorem dbsStepPerm_testBit_v (n v : Nat) (f : Nat → Nat) (hv : v < n)
    (hmap : ∀ x, x < 2 ^ n → f x < 2 ^ n)
    (hinj : ∀ x, x < 2 ^ n → ∀ y, y < 2 ^ n → f x = f y → x = y)
    (x : Nat) (hx : x < 2 ^ n) :
    (dbsStepPerm n v f x).testBit v = x.testBit v := by
  have hvalid := dbsChoice_valid n v f hv hmap hinj
  have hndimgs : (dbsImgs n v f (dbsChoice n v f)).Nodup :=
    of_decide_eq_true hvalid
  have huniq : ∀ k1, k1 < 2 ^ (othersList n v).length →
      ∀ k2, k2 < 2 ^ (othersList n v).length →
      kOf n v (f (joinV n v k1 (dbsR n v f k1)))
        = kOf n v (f (joinV n v k2 (dbsR n v f k2))) → k1 = k2 := by
    intro k1 hk1 k2 hk2 heq
    exact List.inj_on_of_nodup_map hndimgs (List.mem_range.mpr hk1)
      (List.mem_range.mpr hk2) heq
  have hklt := kOf_lt n v x
  have hxeq := joinV_kOf n v x hx
  have hy : dbsRFn n v f x
      = joinV n v (kOf n v x) ((x.testBit v).xor (dbsR n v f (kOf n v x))) := by
    unfold dbsRFn
    cases hck : dbsR n v f (kOf n v x)
    · rw [if_neg Bool.false_ne_true, Bool.xor_false]
      exact hxeq.symm
    · rw [if_pos rfl, Bool.xor_true]
      have h1 : joinV n v (kOf n v (x ^^^ 2 ^ v)) ((x ^^^ 2 ^ v).testBit v)
          = x ^^^ 2 ^ v :=
        joinV_kOf n v _
          (Nat.xor_lt_two_pow hx (Nat.pow_lt_pow_right (by omega) hv))
      rw [kOf_xor_two_pow, Nat.testBit_xor, Nat.testBit_two_pow_self,
        Bool.xor_true] at h1
      exact h1.symm
  unfold dbsStepPerm
  rw [hy]
  cases hbx : x.testBit v
  · rw [Bool.false_xor]
    obtain ⟨k0, hk0lt, hk0q, hk0L⟩ := dbsL_spec n v f hv hmap hinj
      (kOf n v (f (joinV n v (kOf n v x) (dbsR n v f (kOf n v x)))))
      (kOf_lt n v _)
    have hkk := huniq k0 hk0lt (kOf n v x) hklt hk0q
    unfold dbsLFn
    rw [hk0L, hkk]
    cases hzv : (f (joinV n v (kOf n v x) (dbsR n v f (kOf n v x)))).testBit v
    · rw [if_neg Bool.false_ne_true]
      exact hzv
    · rw [if_pos rfl, Nat.testBit_xor, Nat.testBit_two_pow_self, hzv]
      rfl
  · rw [Bool.true_xor]
    obtain ⟨k0, hk0lt, hk0q, hk0L⟩ := dbsL_spec n v f hv hmap hinj
      (kOf n v (f (joinV n v (kOf n v x) (!(dbsR n v f (kOf n v x))))))
      (kOf_lt n v _)
    have hylt : joinV n v (kOf n v x) (!(dbsR n v f (kOf n v x))) < 2 ^ n :=
      joinV_lt n v _ _ hv hklt
    have hchlt : joinV n v k0 (dbsR n v f k0) < 2 ^ n := joinV_lt n v _ _ hv hk0lt
    have hwne : f (joinV n v k0 (dbsR n v f k0))
        ≠ f (joinV n v (kOf n v x) (!(dbsR n v f (kOf n v x)))) := by
      intro hc
      have hjj := hinj _ hchlt _ hylt hc
      obtain ⟨hkk, hbb⟩ := joinV_inj n v _ _ _ _ hk0lt hklt hjj
      rw [hkk] at hbb
      cases h2 : dbsR n v f (kOf n v x)
      · rw [h2] at hbb
        simp at hbb
      · rw [h2] at hbb
        simp at hbb
    have hzlt : f (joinV n v (kOf n v x) (!(dbsR n v f (kOf n v x)))) < 2 ^ n :=
      hmap _ hylt
    have hwlt : f (joinV n v k0 (dbsR n v f k0)) < 2 ^ n := hmap _ hchlt
    have hwrep := joinV_kOf n v (f (joinV n v k0 (dbsR n v f k0))) hwlt
    have hzrep := joinV_kOf n v
      (f (joinV n v (kOf n v x) (!(dbsR n v f (kOf n v x))))) hzlt
    have hbitne : (f (joinV n v k0 (dbsR n v f k0))).testBit v
        ≠ (f (joinV n v (kOf n v x) (!(dbsR n v f (kOf n v x))))).testBit v := by
      intro hc
      apply hwne
      rw [← hwrep, ← hzrep, hk0q, hc]
    have hwv : (f (joinV n v k0 (dbsR n v f k0))).testBit v
        = !((f (joinV n v (kOf n v x) (!(dbsR n v f (kOf n v x))))).testBit v) := by
      revert hbitne
      cases (f (joinV n v (kOf n v x) (!(dbsR n v f (kOf n v x))))).testBit v <;>
        cases (f (joinV n v k0 (dbsR n v f k0))).testBit v <;> simp
    unfold dbsLFn
    rw [hk0L, hwv]
    cases hzv : (f (joinV n v (kOf n v x) (!(dbsR n v f (kOf n v x))))).testBit v
    · rw [if_pos (show (!false) = true from rfl), Nat.testBit_xor,
        Nat.testBit_two_pow_self, hzv]
      rfl
    · rw [if_neg (show ¬(!true) = true by decide)]
      exact hzv

theorem dbs_recover (n v : Nat) (f : Nat → Nat) (x : Nat) :
    dbsLFn n v f (dbsStepPerm n v f (dbsRFn n v f x)) = f x := by
  unfold dbsStepPerm
  rw [dbsRFn_invol, dbsLFn_invol]

/-- The residual permutation stays a bijection of the domain and fixes
every bit up to and including `v` once `f` fixed every bit below `v`. -/
theorem dbsStep_invariant (n v : Nat) (f : Nat → Nat) (hv : v < n)
    (hmap : ∀ x, x < 2 ^ n → f x < 2 ^ n)
    (hinj : ∀ x, x < 2 ^ n → ∀ y, y < 2 ^ n → f x = f y → x = y)
    (hfix : ∀ x, x < 2 ^ n → ∀ j, j < v → (f x).testBit j = x.testBit j) :
    (∀ x, x < 2 ^ n → dbsStepPerm n v f x < 2 ^ n) ∧
    (∀ x, x < 2 ^ n → ∀ y, y < 2 ^ n →
      dbsStepPerm n v f x = dbsStepPerm n v f y → x = y) ∧
    (∀ x, x < 2 ^ n → ∀ j, j < v + 1 →
      (dbsStepPerm n v f x).testBit j = x.testBit j) := by
  have hRlt : ∀ x, x < 2 ^ n → dbsRFn n v f x < 2 ^ n := by
    intro x hx
    unfold dbsRFn
    exact flip_cond_lt _ n v x hv hx
  have hSlt : ∀ x, x < 2 ^ n → dbsStepPerm n v f x < 2 ^ n := by
    intro x hx
    unfold dbsStepPerm dbsLFn
    exact flip_cond_lt _ n v _ hv (hmap _ (hRlt x hx))
  refine ⟨hSlt, ?_, ?_⟩
  · intro x hx y hy heq
    have h1 : f (dbsRFn n v f x) = f (dbsRFn n v f y) := by
      have h2 := congrArg (dbsLFn n v f) heq
      unfold dbsStepPerm at h2
      rw [dbsLFn_invol, dbsLFn_invol] at h2
      exact h2
    have h3 := hinj _ (hRlt x hx) _ (hRlt y hy) h1
    have h4 := congrArg (dbsRFn n v f) h3
    rw [dbsRFn_invol, dbsRFn_invol] at h4
    exact h4
  · intro x hx j hj
    by_cases hjv : j = v
    · rw [hjv]
      exact dbsStepPerm_testBit_v n v f hv hmap hinj x hx
    · have hjlt : j < v := by omega
      unfold dbsStepPerm dbsLFn
      rw [flip_cond_testBit_ne _ _ _ _ hjv,
        hfix _ (hRlt x hx) j hjlt]
      unfold dbsRFn
      rw [flip_cond_testBit_ne _ _ _ _ hjv]

/-- The right single-target steps of the decomposition, emitted level by
level (variable `v` upward). -/
def dbsGoR (kind n : Nat) (f : Nat → Nat) (v fuel : Nat) : List Gate :=
  match fuel with
  | 0 => []
  | fuel + 1 =>
      stgDispatch kind ⟨(othersList n v).length, dbsR n v f⟩
          (othersList n v ++ [v])
        ++ dbsGoR kind n (dbsStepPerm n v f) (v + 1) fuel

/-- The left single-target steps, emitted in reverse level order. -/
def dbsGoL (kind n : Nat) (f : Nat → Nat) (v fuel : Nat) : List Gate :=
  match fuel with
  | 0 => []
  | fuel + 1 =>
      dbsGoL kind n (dbsStepPerm n v f) (v + 1) fuel
        ++ stgDispatch kind ⟨(othersList n v).length, dbsL n v f⟩
            (othersList n v ++ [v])

/-- Modelled from the spec: the `dbs` binding
(`tweedledum::dbs`, not under `src/`; §4.4) — decomposition-based
synthesis of a permutation of `{0, …, 2^n − 1}` with the single-target
steps realized through the selected STG embedder.  No validation is
performed on the input list (§9). -/
def dbs (perm : List Nat) (kind : Nat) : Netlist :=
  { numQubits := perm.length.log2,
    gates := dbsGoR kind perm.length.log2 (fun x => perm.getD x 0) 0
        perm.length.log2
      ++ dbsGoL kind perm.length.log2 (fun x => perm.getD x 0) 0
        perm.length.log2 }

/-- Correctness of the decomposition recursion: the emitted right gates
followed by the left gates realize the permutation handed in, whenever
that permutation is a bijection of the `n`-bit domain fixing the bits
below the current level. -/
theorem dbsGo_action (kind n : Nat) (fuel : Nat) : ∀ (v : Nat) (f : Nat → Nat),
    v + fuel = n →
    (∀ x, x < 2 ^ n → f x < 2 ^ n) →
    (∀ x, x < 2 ^ n → ∀ y, y < 2 ^ n → f x = f y → x = y) →
    (∀ x, x < 2 ^ n → ∀ j, j < v → (f x).testBit j = x.testBit j) →
    ∀ x, x < 2 ^ n → ∀ ph : ℚ,
    ∃ ph2, simGates (dbsGoR kind n f v fuel ++ dbsGoL kind n f v fuel)
        ⟨x, ph, none⟩ = some ⟨f x, ph2, none⟩ := by
  induction fuel with
  | zero =>
      intro v f hvf hmap hinj hfix x hx ph
      refine ⟨ph, ?_⟩
      show some (⟨x, ph, none⟩ : SimSt) = some ⟨f x, ph, none⟩
      have hfx : f x = x := by
        apply Nat.eq_of_testBit_eq
        intro j
        by_cases hj : j < n
        · exact hfix x hx j (by omega)
        · have h1 : (f x).testBit j = false :=
            Nat.testBit_lt_two_pow (lt_of_lt_of_le (hmap x hx)
              (Nat.pow_le_pow_right (by omega) (by omega)))
          have h2 : x.testBit j = false :=
            Nat.testBit_lt_two_pow (lt_of_lt_of_le hx
              (Nat.pow_le_pow_right (by omega) (by omega)))
          rw [h1, h2]
      rw [hfx]
  | succ fuel ih =>
      intro v f hvf hmap hinj hfix x hx ph
      have hv : v < n := by omega
      obtain ⟨hSmap, hSinj, hSfix⟩ := dbsStep_invariant n v f hv hmap hinj hfix
      have hRx : dbsRFn n v f x < 2 ^ n := by
        unfold dbsRFn
        exact flip_cond_lt _ n v x hv hx
      obtain ⟨phA, hA⟩ := stgDispatch_action kind
        ⟨(othersList n v).length, dbsR n v f⟩ (othersList n v) v x ph
        (othersList_nodup n v) (not_mem_othersList n v) rfl
      have hA2 : simGates (stgDispatch kind
            ⟨(othersList n v).length, dbsR n v f⟩ (othersList n v ++ [v]))
            ⟨x, ph, none⟩
          = some ⟨dbsRFn n v f x, phA, none⟩ := hA
      obtain ⟨phM, hM⟩ := ih (v + 1) (dbsStepPerm n v f) (by omega)
        hSmap hSinj hSfix (dbsRFn n v f x) hRx phA
      obtain ⟨phB, hB⟩ := stgDispatch_action kind
        ⟨(othersList n v).length, dbsL n v f⟩ (othersList n v) v
        (dbsStepPerm n v f (dbsRFn n v f x)) phM
        (othersList_nodup n v) (not_mem_othersList n v) rfl
      have hB2 : simGates (stgDispatch kind
            ⟨(othersList n v).length, dbsL n v f⟩ (othersList n v ++ [v]))
            ⟨dbsStepPerm n v f (dbsRFn n v f x), phM, none⟩
          = some ⟨dbsLFn n v f (dbsStepPerm n v f (dbsRFn n v f x)), phB,
              none⟩ := hB
      refine ⟨phB, ?_⟩
      simp only [dbsGoR, dbsGoL]
      rw [List.append_assoc,
        ← List.append_assoc (dbsGoR kind n (dbsStepPerm n v f) (v + 1) fuel),
        simGates_append, hA2, Option.some_bind, simGates_append, hM,
        Option.some_bind, hB2, dbs_recover]

/-- Decomposition-based synthesis is correct: on a permutation of
`{0, …, 2^n − 1}` the netlist's action on every basis state is the
permutation, for every synthesis kind. -/
theorem dbs_action (n : Nat) (perm : List Nat) (kind : Nat)
    (hlen : perm.length = 2 ^ n) (hnd : perm.Nodup)
    (hbd : ∀ z ∈ perm, z < 2 ^ n) (x : Nat) (hx : x < 2 ^ n) :
    action (dbs perm kind) x = some (perm.getD x 0) := by
  have hlog : perm.length.log2 = n := by
    rw [hlen, Nat.log2_eq_log_two, Nat.log_pow (by omega)]
  have hmap : ∀ z, z < 2 ^ n → perm.getD z 0 < 2 ^ n := by
    intro z hz
    apply hbd
    rw [getD_eq_get perm z 0 (by omega)]
    exact List.get_mem _ _ _
  have hinj : ∀ a, a < 2 ^ n → ∀ b, b < 2 ^ n →
      perm.getD a 0 = perm.getD b 0 → a = b := by
    intro a ha b hb heq
    have ha2 : a < perm.length := by omega
    have hb2 : b < perm.length := by omega
    rw [getD_eq_get perm a 0 ha2, getD_eq_get perm b 0 hb2] at heq
    have hfin := (List.Nodup.get_inj_iff hnd).mp heq
    exact congrArg Fin.val hfin
  obtain ⟨ph2, hsim⟩ := dbsGo_action kind n n 0 (fun z => perm.getD z 0)
    (by omega) hmap hinj (fun z hz j hj => absurd hj (by omega)) x hx 0
  have hsim2 : simulate (dbs perm kind) x = some (perm.getD x 0, ph2) := by
    apply simulate_of_simGates
    show simGates (dbsGoR kind perm.length.log2 (fun z => perm.getD z 0) 0
        perm.length.log2
      ++ dbsGoL kind perm.length.log2 (fun z => perm.getD z 0) 0
        perm.length.log2) ⟨x, 0, none⟩ = _
    rw [hlog]
    exact hsim
  unfold action
  rw [hsim2]
  rfl

/-! ## The kind fallback (the `default:` switch labels, src lines 119–131
and 163–172) -/

theorem stgDispatch_fallback (kind : Nat) (h0 : kind ≠ 0) (h1 : kind ≠ 1)
    (f : TruthTable) (qubits : List Nat) :
    stgDispatch kind f qubits = stgDispatch 2 f qubits := by
  unfold stgDispatch
  rw [if_neg h0, if_neg h1, if_neg (by omega : ¬(2 : Nat) = 0),
    if_neg (by omega : ¬(2 : Nat) = 1)]

theorem dbsGoR_fallback (kind n : Nat) (h0 : kind ≠ 0) (h1 : kind ≠ 1)
    (fuel : Nat) : ∀ (v : Nat) (f : Nat → Nat),
    dbsGoR kind n f v fuel = dbsGoR 2 n f v fuel := by
  induction fuel with
  | zero =>
      intro v f
      rfl
  | succ fuel ih =>
      intro v f
      simp only [dbsGoR]
      rw [stgDispatch_fallback kind h0 h1, ih]

theorem dbsGoL_fallback (kind n : Nat) (h0 : kind ≠ 0) (h1 : kind ≠ 1)
    (fuel : Nat) : ∀ (v : Nat) (f : Nat → Nat),
    dbsGoL kind n f v fuel = dbsGoL 2 n f v fuel := by
  induction fuel with
  | zero =>
      intro v f
      rfl
  | succ fuel ih =>
      intro v f
      simp only [dbsGoL]
      rw [stgDispatch_fallback kind h0 h1, ih]

/-! ## Character-level congruence of `gray_synth` -/

theorem parseTermMask_congr (s t : List Char) (hlen : s.length = t.length)
    (hpos : ∀ i, i < s.length → ((s.getD i ' ' = '1') ↔ (t.getD i ' ' = '1'))) :
    parseTermMask s = parseTermMask t := by
  apply Nat.eq_of_testBit_eq
  intro j
  rw [parseTermMask_testBit, parseTermMask_testBit, hlen]
  by_cases hj : j < t.length
  · have hd : decide (s.getD j ' ' = '1') = decide (t.getD j ' ' = '1') := by
      rw [decide_eq_decide]
      exact hpos j (by omega)
    rw [hd]
  · have hd : decide (j < t.length) = false := by
      simp only [decide_eq_false_iff_not]
      omega
    rw [hd, Bool.false_and, Bool.false_and]

theorem gray_synth_congr (ts1 ts2 : List (List Char × ℚ))
    (h : List.Forall₂ (fun a b => a.1.length = b.1.length ∧ a.2 = b.2 ∧
      ∀ i, i < a.1.length → ((a.1.getD i ' ' = '1') ↔ (b.1.getD i ' ' = '1')))
      ts1 ts2) :
    gray_synth ts1 = gray_synth ts2 := by
  have hnv : graySynthNumVars ts1 = graySynthNumVars ts2 := by
    induction h with
    | nil => rfl
    | cons h1 h2 ih =>
        rw [graySynthNumVars_cons, graySynthNumVars_cons, h1.1, ih]
  have hpar : graySynthParities ts1 = graySynthParities ts2 := by
    clear hnv
    induction h with
    | nil => rfl
    | cons h1 h2 ih =>
        unfold graySynthParities at ih ⊢
        rw [List.map_cons, List.map_cons, ih,
          parseTermMask_congr _ _ h1.1 h1.2.2, h1.2.1]
  unfold gray_synth
  rw [hnv, hpar]

/-! ## Concrete parity values for the controlled-S example -/

theorem bitParity_one_eq : bitParity 1 = true := by
  rw [bitParity_eval]
  decide

theorem bitParity_two_eq : bitParity 2 = true := by
  rw [bitParity_eval]
  decide

theorem bitParity_three_eq : bitParity 3 = false := by
  rw [bitParity_eval]
  decide

/-- The docstring's controlled-S example: terms `01`, `10`, `11` with
angles `π/4`, `π/4`, `−π/4` (in units of `π`: `1/4`, `1/4`, `−1/4`). -/
def csTerms : List (List Char × ℚ) :=
  [(['0', '1'], 1/4), (['1', '0'], 1/4), (['1', '1'], -(1/4))]

theorem csTerms_parities :
    graySynthParities csTerms = [(2, (1/4 : ℚ)), (1, 1/4), (3, -(1/4))] := rfl

/-! ## The claims -/

/-- C1: for every permutation `p` of `{0, …, 2^n − 1}` with small `n`
(`n ≤ 4`), both `tbs p` and `dbs p kind` return netlists whose simulated
action on every `n`-bit basis state equals `p`. -/
theorem claim_C1 (n : Nat) (hn : n ≤ 4) (perm : List Nat) (kind : Nat)
    (hlen : perm.length = 2 ^ n) (hnd : perm.Nodup)
    (hbd : ∀ z ∈ perm, z < 2 ^ n) (x : Nat) (hx : x < 2 ^ n) :
    action (tbs perm) x = some (perm.getD x 0) ∧
    action (dbs perm kind) x = some (perm.getD x 0) :=
  ⟨tbs_action n perm hlen hnd hbd x hx,
    dbs_action n perm kind hlen hnd hbd x hx⟩

theorem claim_C1_witness :
    action (tbs [1, 0]) 0 = some (([1, 0] : List Nat).getD 0 0) ∧
    action (dbs [1, 0] 0) 0 = some (([1, 0] : List Nat).getD 0 0) :=
  claim_C1 1 (by decide) [1, 0] 0 (by decide) (by decide) (by decide)
    0 (by decide)

/-- C2: the three STG kinds produce netlists with the identical net
action on every basis input for every truth table. -/
theorem claim_C2 (f : TruthTable) (x : Nat) :
    action (oracle_synth f 0) x = action (oracle_synth f 2) x ∧
    action (oracle_synth f 1) x = action (oracle_synth f 2) x := by
  constructor
  · rw [oracle_synth_action, oracle_synth_action]
  · rw [oracle_synth_action, oracle_synth_action]

/-- C3: an angle vector whose length is not of the form `2^n − 1` is
rejected with no partial netlist. -/
theorem claim_C3 (angles : List ℚ) (h : ∀ n : Nat, angles.length ≠ 2 ^ n - 1) :
    diagonal_synth angles = none :=
  diagonal_synth_reject angles h

theorem claim_C3_witness : diagonal_synth [0, 0, 0, 0, 0] = none :=
  claim_C3 [0, 0, 0, 0, 0] (by
    intro n
    match n with
    | 0 => decide
    | 1 => decide
    | 2 => decide
    | (m + 3) =>
        have h8 : (2 : Nat) ^ 3 ≤ 2 ^ (m + 3) :=
          Nat.pow_le_pow_right (by omega) (by omega)
        have hlen5 : ([0, 0, 0, 0, 0] : List ℚ).length = 5 := rfl
        rw [hlen5]
        omega)

/-- C4 (amended): `dbs` performs no validation of its input — it is a
total function that returns a netlist over `log2 (length)` qubits for
every input list, bijection or not; there is no rejection path. -/
theorem claim_C4 (perm : List Nat) (kind : Nat) :
    (dbs perm kind).numQubits = perm.length.log2 := rfl

/-- C4 (counterexample to the claim as stated): the input `[1, 1]` is not
a bijection, yet `dbs` emits gates for it instead of rejecting it. -/
theorem claim_C4_counterexample :
    ¬ ([1, 1] : List Nat).Nodup ∧ (dbs [1, 1] 0).gates ≠ [] := by
  constructor
  · decide
  · intro hc
    have hlog : ([1, 1] : List Nat).length.log2 = 1 := by
      rw [show ([1, 1] : List Nat).length = 2 ^ 1 from rfl,
        Nat.log2_eq_log_two, Nat.log_pow (by omega)]
    rw [show (dbs [1, 1] 0).gates
        = dbsGoR 0 ([1, 1] : List Nat).length.log2
            (fun x => ([1, 1] : List Nat).getD x 0) 0
            ([1, 1] : List Nat).length.log2
          ++ dbsGoL 0 ([1, 1] : List Nat).length.log2
            (fun x => ([1, 1] : List Nat).getD x 0) 0
            ([1, 1] : List Nat).length.log2 from rfl, hlog] at hc
    exact absurd hc (by decide)

/-- C5: every selector outside the recognized set falls through the
switch's `default:` label to the spectrum strategy, in `oracle_synth`
and in `dbs` alike, with no error raised. -/
theorem claim_C5 (kind : Nat) (h0 : kind ≠ 0) (h1 : kind ≠ 1)
    (h2 : kind ≠ 2) (f : TruthTable) (perm : List Nat) :
    oracle_synth f kind = oracle_synth f 2 ∧ dbs perm kind = dbs perm 2 := by
  constructor
  · unfold oracle_synth
    rw [stgDispatch_fallback kind h0 h1]
  · unfold dbs
    rw [dbsGoR_fallback kind _ h0 h1, dbsGoL_fallback kind _ h0 h1]

theorem claim_C5_witness :
    oracle_synth ⟨1, fun _ => false⟩ 3 = oracle_synth ⟨1, fun _ => false⟩ 2 ∧
    dbs [0, 1] 3 = dbs [0, 1] 2 :=
  claim_C5 3 (by decide) (by decide) (by decide) ⟨1, fun _ => false⟩ [0, 1]

/-- C6: `oracle_synth` allocates `num_vars + 1` qubits and the last
qubit (index `num_vars`) is the target, flipped by the function of the
first `num_vars` qubits. -/
theorem claim_C6 (f : TruthTable) (kind : Nat) (x : Nat) :
    (oracle_synth f kind).numQubits = f.numVars + 1 ∧
    action (oracle_synth f kind) x
      = some (if f.val (x % 2 ^ f.numVars) then x ^^^ 2 ^ f.numVars else x) :=
  ⟨rfl, oracle_synth_action f kind x⟩

/-- C7 (amended): the synthesis arity equals the character length of the
first term's bitmask whenever that bitmask is non-empty (an empty first
bitmask lets a later term decide, refuting the claim as stated), and
character position `i` holding the digit one is exactly what puts qubit
`i` into a term's parity mask. -/
theorem claim_C7 (t : List Char × ℚ) (terms : List (List Char × ℚ))
    (h : t.1.length ≠ 0) :
    (gray_synth (t :: terms)).numQubits = t.1.length ∧
    ∀ s : List Char × ℚ, s ∈ t :: terms → ∀ i : Nat,
      (parseTermMask s.1).testBit i
        = (decide (i < s.1.length) && decide (s.1.getD i ' ' = '1')) := by
  constructor
  · show graySynthNumVars (t :: terms) = t.1.length
    rw [graySynthNumVars_cons, if_neg h]
  · intro s hs i
    exact parseTermMask_testBit s.1 i

theorem claim_C7_witness :
    (gray_synth [((['1'] : List Char), (0 : ℚ))]).numQubits
        = ((['1'] : List Char), (0 : ℚ)).1.length ∧
    ∀ s : List Char × ℚ, s ∈ [((['1'] : List Char), (0 : ℚ))] → ∀ i : Nat,
      (parseTermMask s.1).testBit i
        = (decide (i < s.1.length) && decide (s.1.getD i ' ' = '1')) :=
  claim_C7 (['1'], 0) [] (by decide)

/-- C7 (counterexample to the claim as stated): with a non-empty term
list whose first bitmask is empty, the arity is taken from the second
term, not from the first term's length. -/
theorem claim_C7_counterexample :
    (gray_synth [(([] : List Char), (0 : ℚ)), (['1', '1'], 0)]).numQubits = 2
      ∧ (([] : List Char)).length = 0 :=
  ⟨rfl, rfl⟩

/-- C8 (amended): the docstring example terms `(01, π/4)`, `(10, π/4)`,
`(11, −π/4)` synthesize a 2-qubit diagonal netlist whose phases (in
units of `π`) are `0, 0, 0, 1/2`: the diagonal `[1, 1, 1, e^{iπ/2}]`
(a controlled-S), not `[1, 1, 1, e^{iπ/4}]` — the phase on basis state
`11` is `π/4 + π/4 + 0 = π/2`, because the `11` parity is even there. -/
theorem claim_C8 :
    (gray_synth csTerms).numQubits = 2 ∧
    simulate (gray_synth csTerms) 0 = some (0, 0) ∧
    simulate (gray_synth csTerms) 1 = some (1, 0) ∧
    simulate (gray_synth csTerms) 2 = some (2, 0) ∧
    simulate (gray_synth csTerms) 3 = some (3, 1/2) := by
  refine ⟨rfl, ?_, ?_, ?_, ?_⟩
  · rw [gray_synth_simulate, csTerms_parities,
      show graySynthNumVars csTerms = 2 from rfl]
    simp only [List.map_cons, List.map_nil, List.sum_cons, List.sum_nil]
    unfold phaseOf
    rw [show (0 &&& 2 % 2 ^ 2 : Nat) = 0 from rfl,
      show (0 &&& 1 % 2 ^ 2 : Nat) = 0 from rfl,
      show (0 &&& 3 % 2 ^ 2 : Nat) = 0 from rfl, bitParity_zero,
      if_neg Bool.false_ne_true]
    norm_num
  · rw [gray_synth_simulate, csTerms_parities,
      show graySynthNumVars csTerms = 2 from rfl]
    simp only [List.map_cons, List.map_nil, List.sum_cons, List.sum_nil]
    unfold phaseOf
    rw [show (1 &&& 2 % 2 ^ 2 : Nat) = 0 from rfl,
      show (1 &&& 1 % 2 ^ 2 : Nat) = 1 from rfl,
      show (1 &&& 3 % 2 ^ 2 : Nat) = 1 from rfl, bitParity_zero,
      bitParity_one_eq, if_neg Bool.false_ne_true, if_pos rfl, if_pos rfl]
    norm_num
  · rw [gray_synth_simulate, csTerms_parities,
      show graySynthNumVars csTerms = 2 from rfl]
    simp only [List.map_cons, List.map_nil, List.sum_cons, List.sum_nil]
    unfold phaseOf
    rw [show (2 &&& 2 % 2 ^ 2 : Nat) = 2 from rfl,
      show (2 &&& 1 % 2 ^ 2 : Nat) = 0 from rfl,
      show (2 &&& 3 % 2 ^ 2 : Nat) = 2 from rfl, bitParity_zero,
      bitParity_two_eq, if_pos rfl, if_neg Bool.false_ne_true, if_pos rfl]
    norm_num
  · rw [gray_synth_simulate, csTerms_parities,
      show graySynthNumVars csTerms = 2 from rfl]
    simp only [List.map_cons, List.map_nil, List.sum_cons, List.sum_nil]
    unfold phaseOf
    rw [show (3 &&& 2 % 2 ^ 2 : Nat) = 2 from rfl,
      show (3 &&& 1 % 2 ^ 2 : Nat) = 1 from rfl,
      show (3 &&& 3 % 2 ^ 2 : Nat) = 3 from rfl, bitParity_two_eq,
      bitParity_one_eq, bitParity_three_eq, if_pos rfl,
      if_neg Bool.false_ne_true]
    norm_num

/-- C8 (counterexample to the claim as stated): the phase the netlist
applies to basis state `11` is `π/2`, which differs from the claimed
`π/4` and cannot be reconciled by any global phase (phases live modulo
`2π`; in units of `π`, modulo `2`). -/
theorem claim_C8_counterexample :
    simulate (gray_synth csTerms) 3 = some (3, 1/2) ∧ (1/2 : ℚ) ≠ 1/4 ∧
    ¬∃ g : ℚ, (∃ k : ℤ, (0 : ℚ) - g = 2 * k) ∧
      (∃ k : ℤ, (1/2 : ℚ) - (g + 1/4) = 2 * k) := by
  refine ⟨?_, by norm_num, ?_⟩
  · rw [gray_synth_simulate, csTerms_parities,
      show graySynthNumVars csTerms = 2 from rfl]
    simp only [List.map_cons, List.map_nil, List.sum_cons, List.sum_nil]
    unfold phaseOf
    rw [show (3 &&& 2 % 2 ^ 2 : Nat) = 2 from rfl,
      show (3 &&& 1 % 2 ^ 2 : Nat) = 1 from rfl,
      show (3 &&& 3 % 2 ^ 2 : Nat) = 3 from rfl, bitParity_two_eq,
      bitParity_one_eq, bitParity_three_eq, if_pos rfl,
      if_neg Bool.false_ne_true]
    norm_num
  · rintro ⟨g, ⟨k0, hk0⟩, ⟨k3, hk3⟩⟩
    have h8 : (8 : ℚ) * ((k3 : ℚ) - (k0 : ℚ)) = 1 := by linarith
    have h8z : (8 : ℤ) * (k3 - k0) = 1 := by exact_mod_cast h8
    omega

/-- C9: `gray_synth` on an empty term list does not fail: the arity
stays `0` and the netlist has zero qubits and zero gates. -/
theorem claim_C9 :
    gray_synth [] = { numQubits := 0, gates := [] } ∧
    graySynthNumVars [] = 0 :=
  ⟨rfl, rfl⟩

/-- C10: bitmask characters are not validated — any character other
than the digit one counts as zero, so term lists whose bitmasks agree on
length and on the positions of the digit one (and share their angles)
produce identical netlists. -/
theorem claim_C10 (ts1 ts2 : List (List Char × ℚ))
    (h : List.Forall₂ (fun a b => a.1.length = b.1.length ∧ a.2 = b.2 ∧
      ∀ i, i < a.1.length → ((a.1.getD i ' ' = '1') ↔ (b.1.getD i ' ' = '1')))
      ts1 ts2) :
    gray_synth ts1 = gray_synth ts2 :=
  gray_synth_congr ts1 ts2 h

theorem claim_C10_witness :
    gray_synth [((['0', 'x'] : List Char), (0 : ℚ))]
      = gray_synth [((['0', '0'] : List Char), (0 : ℚ))] :=
  claim_C10 _ _ (List.Forall₂.cons ⟨rfl, rfl, by decide⟩ List.Forall₂.nil)

end RevKit
